import Mathlib

/-!
# Fine Delay card library (`software/lib/fdelay_lib.c`): timestamp arithmetic and calibration

A shallow embedding of the pure parts of the user-space driver.

Conventions of the embedding

* C integers are Lean `Int`s; every C operation whose result is stored in a
  fixed-width object is followed by the corresponding wrap (`int32`, `int64`,
  `uint64`), so that overflow is visible. Signed overflow is modelled as
  two's-complement wrap-around.
* A finite C `double` is the rational it denotes (`ℚ`). In the calibration
  functions (`measure_output_delay`, `find_8ns_tap`) every `double` operation
  is followed by its rounding `fl`; `round_double` is the rounding to the
  nearest binary64 number, ties to even. `sqrt` from `math.h` is a parameter of
  the functions that call it. The divider search `acam_calc_pll` is embedded
  over the exact rationals.
* Hardware reads are inputs of the functions that perform them. The functions
  that drive the card (`acam_*`, `sgpio_*`, `fdelay_init`,
  `fdelay_configure_output`) pass a device along: the state of the hardware, the
  private data of the driver, and a log of the accesses made so far.
-/

namespace FineDelay

/-! ## Machine integers -/

/-- Value of an integer expression stored in an `int32_t` / `int`. -/
def int32 (x : Int) : Int := (x + 2147483648) % 4294967296 - 2147483648

/-- Value of an integer expression stored in an `int64_t`. -/
def int64 (x : Int) : Int :=
  (x + 9223372036854775808) % 18446744073709551616 - 9223372036854775808

/-- Value of an integer expression stored in a `uint64_t`. -/
def uint64 (x : Int) : Int := x % 18446744073709551616

/-! ## Timestamps -/

/-- Modelled from the spec: the declaration of `fdelay_time_t` lives in
`fdelay_lib.h`, which is not part of the sources at hand. The fields are the
ones `fdelay_lib.c` accesses: `utc` (seconds, `int64_t`), `coarse` (8 ns
cycles, `int32_t`), `frac` (fractional part, `int32_t`), `seq_id` and
`channel`. -/
structure fdelay_time_t where
  utc : Int
  coarse : Int
  frac : Int
  seq_id : Int
  channel : Int
  deriving DecidableEq, Repr

/-- Modelled from the spec: `FDELAY_FRAC_BITS` is defined in a header that is
not part of the sources at hand; the fractional field has `F = 12` bits. -/
def FDELAY_FRAC_BITS : Nat := 12

/-- A normalized timestamp: `0 ≤ frac < 2^F` and `0 ≤ coarse < 125_000_000`. -/
def normalized (t : fdelay_time_t) : Prop :=
  0 ≤ t.frac ∧ t.frac < 4096 ∧ 0 ≤ t.coarse ∧ t.coarse < 125000000

instance (t : fdelay_time_t) : Decidable (normalized t) := by
  unfold normalized; infer_instance

/-- The function `fdelay_from_picos`: converts a time interval in picoseconds to the
timestamp format. `t0` is the content of the local variable `t` before the
three assignments (the function leaves `seq_id` and `channel` untouched); the
argument is converted to the parameter type `uint64_t`, and `1 << FDELAY_FRAC_BITS`
is written `2 ^ FDELAY_FRAC_BITS`. -/
def fdelay_from_picos (t0 : fdelay_time_t) (ps : Int) : fdelay_time_t :=
  let tmp := uint64 ps
  let frac := int32 (uint64 ((tmp % 8000) * uint64 (2 ^ FDELAY_FRAC_BITS)) / 8000)
  let tmp := uint64 (tmp - tmp % 8000)
  let tmp := tmp / 8000
  let coarse := int32 (tmp % 125000000)
  let tmp := uint64 (tmp - tmp % 125000000)
  let tmp := tmp / 125000000
  let utc := int64 tmp
  { t0 with frac := frac, coarse := coarse, utc := utc }

/-- The function `ts_sub`: subtracts two timestamps (operates on the by-value copy `a`). -/
def ts_sub (a b : fdelay_time_t) : fdelay_time_t :=
  let a := { a with frac := int32 (a.frac - b.frac) }
  let a := if a.frac < 0 then
      { a with frac := int32 (a.frac + 4096), coarse := int32 (a.coarse - 1) }
    else a
  let a := { a with coarse := int32 (a.coarse - b.coarse) }
  let a := if a.coarse < 0 then
      { a with coarse := int32 (a.coarse + 125000000), utc := int64 (a.utc + 1) }
    else a
  a

/-- The function `fdelay_to_picos`: converts a timestamp to plain picoseconds, in an
`int64_t` accumulator. -/
def fdelay_to_picos (t : fdelay_time_t) : Int :=
  int64 (int64 ((int64 (int64 t.frac * 8000) >>> FDELAY_FRAC_BITS)
      + int64 (int64 t.coarse * 8000))
    + int64 (int64 t.utc * 1000000000000))

/-- The exact picosecond value of a timestamp over unbounded integers:
`floor (frac * 8000 / 2^12) + coarse * 8000 + utc * 10^12`. -/
def exact_picos (t : fdelay_time_t) : Int :=
  t.frac * 8000 / 4096 + t.coarse * 8000 + t.utc * 1000000000000

/-- The value of a timestamp in units of `8000 / 4096` ps:
`(utc * 125_000_000 + coarse) * 4096 + frac`. -/
def val (t : fdelay_time_t) : Int :=
  (t.utc * 125000000 + t.coarse) * 4096 + t.frac

/-! ## ACAM PLL divider search -/

/-- The locals `best_err`, `best_bin` and the two out-parameters `*hsdiv`,
`*refdiv` of `acam_calc_pll`. The last three are written together, and only
inside the `if`; `sel = none` says that none of them has been written yet
(`best_bin` is declared without an initial value, and the caller passes the
addresses of uninitialised variables). -/
structure pll_search where
  best_err : ℚ
  sel : Option (Int × Int × ℚ)

/-- The bin size `b` computed in the body of the loops of `acam_calc_pll`:
`((1.0 / clock_freq) * 1e12) * pow (2.0, r) / (216.0 * h)`. -/
def pll_bin (clock_freq : ℚ) (h r : Nat) : ℚ :=
  ((1 / clock_freq) * 1000000000000) * 2 ^ r / (216 * (h : ℚ))

/-- The body of the loops of `acam_calc_pll` for one pair `(h, r)`. -/
def pll_body (bin clock_freq : ℚ) (st : pll_search) (h r : Nat) : pll_search :=
  let b := pll_bin clock_freq h r
  if |bin - b| < st.best_err then
    { best_err := |bin - b|, sel := some ((h : Int), (r : Int), b) }
  else st

/-- The function `acam_calc_pll`: tries all divider settings, `h = 1 .. 255` in
the outer loop and `r = 0 .. 7` in the inner loop, starting from
`best_err = 100000`. The result holds the returned `best_bin` and the values
left in `*hsdiv` and `*refdiv`. -/
def acam_calc_pll (bin clock_freq : ℚ) : pll_search :=
  (List.range' 1 255).foldl
    (fun st h => (List.range 8).foldl (fun st r => pll_body bin clock_freq st h r) st)
    { best_err := 100000, sel := none }

/-- The error `|bin - b (h, r)|` of the divider pair `(h, r)`. -/
def pll_err (bin clock_freq : ℚ) (h r : Nat) : ℚ := |bin - pll_bin clock_freq h r|

/-- The pair `(h1, r1)` is tried before the pair `(h2, r2)`: `h` ascends in the
outer loop and `r` in the inner loop. -/
def pll_before (h1 r1 h2 r2 : Nat) : Prop := h1 < h2 ∨ (h1 = h2 ∧ r1 < r2)

/-- The state of the divider search after the pairs in `S` have been tried:
either no pair of `S` has an error below 100000 and nothing is selected, or the
selected pair is the first pair of `S` with the least error. -/
def pll_inv (bin clock_freq : ℚ) (S : Nat → Nat → Prop) (st : pll_search) : Prop :=
  (st.sel = none ∧ st.best_err = 100000 ∧
    ∀ h r, S h r → 100000 ≤ pll_err bin clock_freq h r) ∨
  (∃ h r, S h r ∧ st.sel = some ((h : Int), (r : Int), pll_bin clock_freq h r) ∧
    st.best_err = pll_err bin clock_freq h r ∧ pll_err bin clock_freq h r < 100000 ∧
    ∀ h' r', S h' r' →
      pll_err bin clock_freq h r ≤ pll_err bin clock_freq h' r' ∧
      (pll_before h' r' h r → pll_err bin clock_freq h r < pll_err bin clock_freq h' r'))

/-! ## Double arithmetic -/

/-- Rounding of a rational to the nearest integer, a tie going to the even one. -/
def round_even (y : ℚ) : Int :=
  if y - (⌊y⌋ : ℚ) < 1 / 2 then ⌊y⌋
  else if 1 / 2 < y - (⌊y⌋ : ℚ) then ⌊y⌋ + 1
  else if ⌊y⌋ % 2 = 0 then ⌊y⌋ else ⌊y⌋ + 1

/-- Exponent of the spacing of the binary64 numbers around `x`: 53 significant
bits, and the subnormal spacing `2^-1074` at the bottom of the range. -/
def double_ulp_exp (x : ℚ) : Int := max (Int.log 2 |x| - 52) (-1074)

/-- The result of a `double` operation whose exact result is `x`: `x` rounded to
the nearest binary64 number, ties to even (each operation rounded once to
binary64, as with `FLT_EVAL_METHOD` 0 and no contraction). A finite `double` is
the rational it denotes. The exponent is not bounded above: a result of
magnitude `2^1024` or more, an infinity in C, is represented by a large
rational, which compares with `8000.0` as the infinity does. -/
def round_double (x : ℚ) : ℚ :=
  (round_even (x / 2 ^ double_ulp_exp x) : ℚ) * 2 ^ double_ulp_exp x

/-- The rational `x` is a finite binary64 number: rounding leaves it unchanged and
it lies below the overflow threshold. -/
def is_double (x : ℚ) : Prop := round_double x = x ∧ |x| < 2 ^ 1024

instance (x : ℚ) : Decidable (is_double x) := by
  unfold is_double
  infer_instance

/-! ## Calibration -/

/-- One iteration of the measurement loop of `measure_output_delay`: reads the
tag, converts it to picoseconds, adds it to `acc` (first component) and stores
it in `rec[i]` (second component). `fl` is the rounding of a `double`
operation; the conversion `(double) (fr & 0x1ffff)` is exact. -/
def measure_shot (fl : ℚ → ℚ) (acam_bin : ℚ) (acam_read : Nat → Nat)
    (st : ℚ × (Nat → ℚ)) (i : Nat) : ℚ × (Nat → ℚ) :=
  let fr := acam_read i
  let tag : ℚ := fl (fl ((((fr >>> 0) &&& 0x1ffff : Nat) : ℚ) * acam_bin) * 3)
  (fl (st.1 + tag), Function.update st.2 i tag)

/-- One iteration of the second loop of `measure_output_delay`:
`std += (rec[i] - acc) * (rec[i] - acc)`, the two differences, the product and
the sum each rounded by `fl`. -/
def deviation_shot (fl : ℚ → ℚ) (rec_ : Nat → ℚ) (acc : ℚ) (std : ℚ) (i : Nat) : ℚ :=
  fl (std + fl (fl (rec_ i - acc) * fl (rec_ i - acc)))

/-- The function `measure_output_delay`, seen from its return value and the value
stored through `sdev`. `acam_read i` is the word returned by `acam_read_reg` in
iteration `i` of the measurement loop, `acam_bin` is `hw->acam_bin`, `rec0` the
initial content of the local array `rec`, `fl` the rounding of a `double`
operation (`round_double` for the program as compiled to binary64 arithmetic),
`sqrt` the function of `math.h`, and `sdev` tells whether the pointer `sdev` is
non-NULL. The conversion `(double) n_avgs` is exact. The register writes of the
function do not enter its results. -/
def measure_output_delay (fl : ℚ → ℚ) (sqrt : ℚ → ℚ) (acam_bin : ℚ) (rec0 : Nat → ℚ)
    (acam_read : Nat → Nat) (n_avgs : Int) (sdev : Bool) : ℚ × Option ℚ :=
  let st := (List.range n_avgs.toNat).foldl (measure_shot fl acam_bin acam_read) (0, rec0)
  let rec_ := st.2
  let acc := fl (st.1 / (n_avgs : ℚ))
  let std := (List.range n_avgs.toNat).foldl (deviation_shot fl rec_ acc) 0
  (acc, if sdev then some (sqrt (fl (std / (n_avgs : ℚ)))) else none)

/-- The reading of shot `i` in picoseconds: the 17-bit tag of the word read from
the ACAM, times the bin width, times 3, as an exact rational. -/
def reading (acam_bin : ℚ) (acam_read : Nat → Nat) (i : Nat) : ℚ :=
  ((acam_read i &&& 0x1ffff : Nat) : ℚ) * acam_bin * 3

/-- The exact sum of the readings of the shots before shot `i`. -/
def reading_sum (acam_bin : ℚ) (acam_read : Nat → Nat) (i : Nat) : ℚ :=
  ∑ j in Finset.range i, reading acam_bin acam_read j

/-- The exact mean of the readings of `n` shots. -/
def exact_mean (acam_bin : ℚ) (acam_read : Nat → Nat) (n : Nat) : ℚ :=
  reading_sum acam_bin acam_read n / (n : ℚ)

/-- The exact sum of the squared deviations, from the exact mean of `n` shots, of
the readings of the shots before shot `i`. -/
def deviation_sum (acam_bin : ℚ) (acam_read : Nat → Nat) (n i : Nat) : ℚ :=
  ∑ j in Finset.range i, (reading acam_bin acam_read j - exact_mean acam_bin acam_read n) ^ 2

/-- The exact population variance of the readings of `n` shots. -/
def exact_variance (acam_bin : ℚ) (acam_read : Nat → Nat) (n : Nat) : ℚ :=
  deviation_sum acam_bin acam_read n n / (n : ℚ)

/-- No `double` operation of `measure_output_delay` rounds on `n` shots: the exact
result of each product, sum, difference and quotient that the function computes
is a finite binary64 number. -/
def no_rounding (acam_bin : ℚ) (acam_read : Nat → Nat) (n : Nat) : Prop :=
  (∀ i, i < n →
    is_double (((acam_read i &&& 0x1ffff : Nat) : ℚ) * acam_bin) ∧
    is_double (reading acam_bin acam_read i) ∧
    is_double (reading_sum acam_bin acam_read i + reading acam_bin acam_read i) ∧
    is_double (reading acam_bin acam_read i - exact_mean acam_bin acam_read n) ∧
    is_double ((reading acam_bin acam_read i - exact_mean acam_bin acam_read n)
      * (reading acam_bin acam_read i - exact_mean acam_bin acam_read n)) ∧
    is_double (deviation_sum acam_bin acam_read n i
      + (reading acam_bin acam_read i - exact_mean acam_bin acam_read n)
        * (reading acam_bin acam_read i - exact_mean acam_bin acam_read n))) ∧
  is_double (exact_mean acam_bin acam_read n) ∧
  is_double (exact_variance acam_bin acam_read n)

instance (acam_bin : ℚ) (acam_read : Nat → Nat) (n : Nat) :
    Decidable (no_rounding acam_bin acam_read n) := by
  unfold no_rounding
  infer_instance

/-- The `while` loop of `find_8ns_tap`. `measure s fine` stands for the call
`measure_output_delay (dev, channel, fine, FDELAY_CAL_AVG_STEPS, NULL)` on the
device state `s`: it yields the measured delay and the next device state. `fl`
is the rounding of the `double` subtraction (`round_double` for the program as
compiled to binary64 arithmetic). `fuel` bounds the number of
evaluations of the loop condition; `none` means that the loop did not finish
within `fuel`. -/
def find_8ns_loop {σ : Type} (fl : ℚ → ℚ) (measure : σ → Int → ℚ × σ) (bias : ℚ) :
    Nat → Int → Int → σ → Option (Int × σ)
  | 0, _, _, _ => none
  | fuel + 1, l, r, s =>
    if |int32 (l - r)| > 1 then
      let mid := Int.tdiv (int32 (l + r)) 2
      let m := measure s mid
      let dly := fl (m.1 - bias)
      if dly < 8000 then find_8ns_loop fl measure bias fuel mid r m.2
      else find_8ns_loop fl measure bias fuel l mid m.2
    else some (l, s)

/-- The function `find_8ns_tap`. `N_TAPS` is the constant `FDELAY_NUM_TAPS`,
defined in a header that is not part of the sources at hand. -/
def find_8ns_tap {σ : Type} (fl : ℚ → ℚ) (N_TAPS : Int) (measure : σ → Int → ℚ × σ)
    (fuel : Nat) (s : σ) : Option (Int × σ) :=
  let l := 0
  let r := int32 (N_TAPS - 1)
  let b := measure s 0
  find_8ns_loop fl measure b.1 fuel l r b.2

/-- A measurement function instrumented with a counter of its calls: the second
component of the state counts the calls of `measure_output_delay` made so far. -/
def counted {σ : Type} (measure : σ → Int → ℚ × σ) : σ × Nat → Int → ℚ × (σ × Nat) :=
  fun s fine => ((measure s.1 fine).1, ((measure s.1 fine).2, s.2 + 1))

/-- A sample delay line with a plateau: `2^-60` ps at tap 0, 8000 ps at taps 1
and 2, 8001 ps from tap 3 on. All values are binary64 numbers. -/
def plateau_delay (f : Int) : ℚ :=
  if f ≤ 0 then 1 / 1152921504606846976 else if f ≤ 2 then 8000 else 8001

/-- A sample tag sequence: tag 1 on the first read, tag 0 afterwards. -/
def single_tag (i : Nat) : Nat := if i = 0 then 1 else 0

/-- A sample square root on the rationals: the integer square root of the floor. -/
def floor_sqrt (q : ℚ) : ℚ := ((Nat.sqrt (Int.toNat (Int.floor q)) : Nat) : ℚ)

/-- The function `eval_poly`: evaluates a 2nd order polynomial whose
coefficients `coef 0`, `coef 1`, `coef 2` (`int64_t`) have 32 fractional bits,
at the `int32_t` argument `x`. -/
def eval_poly (coef : Nat → Int) (x : Int) : Int :=
  let x64 := int64 x
  let sum := int64 (int64 (int64 (int64 (coef 0 * x64) * x64) + int64 (coef 1 * x64)) + coef 2)
  let y := int32 (sum >>> (32 : Nat))
  int32 y

/-- The default fit polynomial that `fdelay_init` installs when the calibration
EEPROM is not readable. -/
def default_frr_poly : Nat → Int
  | 0 => -165202
  | 1 => -29825595
  | 2 => 3801939743082
  | _ => 0

/-! ## The device as the driver sees it -/

/-- Value of an integer expression stored in a `uint8_t`. -/
def uint8 (x : Nat) : Nat := x % 256

/-- Value of an integer expression passed as a `uint32_t`. -/
def uint32 (x : Int) : Nat := (x % 4294967296).toNat

/-- The constants that `fdelay_lib.c` takes from headers that are not part of the
sources at hand (`fd_main_regs.h`, `fd_channel_regs.h`, `fdelay_private.h`,
`acam_gpx.h`): register offsets, bit masks and the two macros with an argument.
They are parameters of the embedding. -/
structure fd_consts where
  CS_GPIO : Nat
  MCP_IODIR : Nat
  MCP_OLAT : Nat
  MCP_IOCON : Nat
  FD_REG_TDR : Nat
  FD_REG_TDCSR : Nat
  FD_TDCSR_READ : Nat
  FD_TDCSR_WRITE : Nat
  FD_REG_FRR : Nat
  FD_REG_U_STARTH : Nat
  FD_REG_U_STARTL : Nat
  FD_REG_C_START : Nat
  FD_REG_F_START : Nat
  FD_REG_U_ENDH : Nat
  FD_REG_U_ENDL : Nat
  FD_REG_C_END : Nat
  FD_REG_F_END : Nat
  FD_REG_U_DELTA : Nat
  FD_REG_C_DELTA : Nat
  FD_REG_F_DELTA : Nat
  FD_REG_RCR : Nat
  FD_REG_DCR : Nat
  FD_RCR_REP_CNT_W : Int → Nat
  FD_RCR_CONT : Nat
  FD_DCR_NO_FINE : Nat
  FD_DCR_UPDATE : Nat
  FD_DCR_ENABLE : Nat
  SGPIO_OUTPUT_EN : Int → Nat
  SGPIO_TRIG_SEL : Nat
  SGPIO_TERM_EN : Nat
  FD_REG_IDR : Nat
  FDELAY_MAGIC_ID : Nat
  FD_REG_GCR : Nat
  FD_GCR_DDR_LOCKED : Nat
  FD_GCR_BYPASS : Nat
  FD_GCR_INPUT_EN : Nat
  FD_REG_TSBCR : Nat
  FD_TSBCR_PURGE : Nat
  FD_TSBCR_RST_SEQ : Nat
  FD_REG_ADSFR : Nat
  FD_REG_ASOR : Nat
  FD_REG_ATMCR : Nat
  ACAM_RMODE : Int

/-- The callees of `fdelay_init` that the embedding does not look into. Each is
one step of the platform, which fixes its return value and its effect on the
hardware. -/
inductive callee where
  | malloc
  | read_calibration_eeprom
  | fd_do_reset (mode : Int)
  | ad9516_init
  | ds18x_init
  | ds18x_read_temp
  | udelay (usecs : Nat)
  | calibrate_outputs
  | acam_configure (mode : Int)
  | fdelay_set_time
  deriving DecidableEq, Repr

/-- One access of the driver to the world outside it, as recorded in the log of
a device: a register write, a register read with the value read, an SPI
transaction with the word read back, or a call of one of the `callee`s with its
return value. -/
inductive io_event where
  | writel (data addr : Nat)
  | readl (addr value : Nat)
  | spi (ss num_bits data out : Nat)
  | call (c : callee) (ret : Int)
  deriving DecidableEq, Repr

/-- Modelled from the spec: the calibration block `struct fine_delay_calibration`
is declared in `fdelay_private.h`, which is not part of the sources at hand.
The fields are the ones `fdelay_lib.c` accesses. -/
structure fine_delay_calibration where
  frr_poly : Nat → Int
  tdc_zero_offset : Int
  atmcr_val : Int
  adsfr_val : Int
  acam_start_offset : Int
  zero_offset : Int → Int

/-- The world outside the driver, with state `σ`: the register transport behind
`fd_writel` and `fd_readl`, the SPI transaction `oc_spi_txrx` (which the source
builds from register accesses and a busy-wait on the ready flag; it is taken as
one step that completes), the callees that are not looked into, and the block
that `read_calibration_eeprom` copies when it succeeds. -/
structure fd_platform (σ : Type) where
  writel : σ → Nat → Nat → σ
  readl : σ → Nat → Nat × σ
  spi : σ → Nat → Nat → Nat → Nat × σ
  call : σ → callee → Int × σ
  eeprom : σ → fine_delay_calibration

/-- A device: the hardware state `io`, the fields of the private data
`struct fine_delay_hw` that the embedded functions use (`acam_addr`, `calib`,
`frr_cur`), and the log of the accesses made so far, oldest first. -/
structure fd_dev (σ : Type) where
  io : σ
  acam_addr : Nat
  calib : fine_delay_calibration
  frr_cur : Int → Int
  log : List io_event

/-- The macro `fd_writel (data, addr)`. -/
def fd_writel {σ : Type} (P : fd_platform σ) (d : fd_dev σ) (data addr : Nat) : fd_dev σ :=
  { d with io := P.writel d.io data addr, log := d.log ++ [io_event.writel data addr] }

/-- The macro `fd_readl (addr)`: the value read and the device afterwards. -/
def fd_readl {σ : Type} (P : fd_platform σ) (d : fd_dev σ) (addr : Nat) : Nat × fd_dev σ :=
  let r := P.readl d.io addr
  (r.1, { d with io := r.2, log := d.log ++ [io_event.readl addr r.1] })

/-- The function `oc_spi_txrx`: one SPI transaction; returns the read-back word. -/
def oc_spi_txrx {σ : Type} (P : fd_platform σ) (d : fd_dev σ) (ss num_bits inw : Nat) :
    Nat × fd_dev σ :=
  let r := P.spi d.io ss num_bits inw
  (r.1, { d with io := r.2, log := d.log ++ [io_event.spi ss num_bits inw r.1] })

/-- A call of a function that the embedding does not look into. -/
def call_out {σ : Type} (P : fd_platform σ) (d : fd_dev σ) (c : callee) : Int × fd_dev σ :=
  let r := P.call d.io c
  (r.1, { d with io := r.2, log := d.log ++ [io_event.call c r.1] })

/-- The function `mcp_write`: writes an MCP23S17 register. -/
def mcp_write {σ : Type} (P : fd_platform σ) (K : fd_consts) (d : fd_dev σ) (reg val : Nat) :
    fd_dev σ :=
  (oc_spi_txrx P d K.CS_GPIO 24 (0x4e0000 ||| (uint8 reg <<< 8) ||| uint8 val)).2

/-- The function `mcp_read`: reads an MCP23S17 register. -/
def mcp_read {σ : Type} (P : fd_platform σ) (K : fd_consts) (d : fd_dev σ) (reg : Nat) :
    Nat × fd_dev σ :=
  let r := oc_spi_txrx P d K.CS_GPIO 24 (0x4f0000 ||| (uint8 reg <<< 8))
  (r.1 &&& 0xff, r.2)

/-- The function `sgpio_init`. -/
def sgpio_init {σ : Type} (P : fd_platform σ) (K : fd_consts) (d : fd_dev σ) : fd_dev σ :=
  mcp_write P K d K.MCP_IOCON 0

/-- The function `sgpio_set_dir`: sets the direction of an MCP23S17 pin. -/
def sgpio_set_dir {σ : Type} (P : fd_platform σ) (K : fd_consts) (d : fd_dev σ)
    (pin : Nat) (dir : Int) : fd_dev σ :=
  let iodir := uint8 (K.MCP_IODIR + (if pin &&& 0x100 ≠ 0 then 1 else 0))
  let r := mcp_read P K d iodir
  let x := if dir ≠ 0 then r.1 &&& (255 - uint8 pin) else uint8 (r.1 ||| pin)
  mcp_write P K r.2 iodir x

/-- The function `sgpio_set_pin`: sets the value of an MCP23S17 pin. -/
def sgpio_set_pin {σ : Type} (P : fd_platform σ) (K : fd_consts) (d : fd_dev σ)
    (pin : Nat) (val : Int) : fd_dev σ :=
  let gpio := uint8 (K.MCP_OLAT + (if pin &&& 0x100 ≠ 0 then 1 else 0))
  let r := mcp_read P K d gpio
  let x := if val = 0 then r.1 &&& (255 - uint8 pin) else uint8 (r.1 ||| pin)
  mcp_write P K r.2 gpio x

/-- The function `acam_set_address`: drives the address bus of the ACAM through
the GPIO expander, unless the address is the cached one. -/
def acam_set_address {σ : Type} (P : fd_platform σ) (K : fd_consts) (d : fd_dev σ)
    (addr : Nat) : fd_dev σ :=
  let addr := uint8 addr
  if addr ≠ d.acam_addr then
    let d := mcp_write P K d (K.MCP_IODIR + 1) 0
    let d := mcp_write P K d (K.MCP_OLAT + 1) (addr &&& 0xf)
    { d with acam_addr := addr }
  else d

/-- The function `acam_read_reg`: reads a register of the ACAM. -/
def acam_read_reg {σ : Type} (P : fd_platform σ) (K : fd_consts) (d : fd_dev σ)
    (reg : Nat) : Nat × fd_dev σ :=
  let d := acam_set_address P K d reg
  let d := fd_writel P d K.FD_TDCSR_READ K.FD_REG_TDCSR
  let r := fd_readl P d K.FD_REG_TDR
  (r.1 &&& 0xfffffff, r.2)

/-- The function `acam_write_reg`: writes a register of the ACAM. -/
def acam_write_reg {σ : Type} (P : fd_platform σ) (K : fd_consts) (d : fd_dev σ)
    (reg data : Nat) : fd_dev σ :=
  let d := acam_set_address P K d reg
  let d := fd_writel P d (data &&& 0xfffffff) K.FD_REG_TDR
  fd_writel P d K.FD_TDCSR_WRITE K.FD_REG_TDCSR

/-- One iteration of the loop of `acam_test_bus` up to the comparison: writes
the pattern `1 << i` to register 5, reads register 0, reads register 5 back.
Returns the word read back. -/
def acam_test_pattern {σ : Type} (P : fd_platform σ) (K : fd_consts) (d : fd_dev σ)
    (i : Nat) : Nat × fd_dev σ :=
  let d := acam_write_reg P K d 5 (1 <<< i)
  let d := (acam_read_reg P K d 0).2
  acam_read_reg P K d 5

/-- The loop of `acam_test_bus` from index `i`, with `n` iterations left. The
result is the value returned: `some (-1)` from the `return -1` inside the loop,
and `none` when the loop ends, since control then reaches the closing brace of
the function, which has no `return` statement there. -/
def acam_test_bus_loop {σ : Type} (P : fd_platform σ) (K : fd_consts) :
    Nat → Nat → fd_dev σ → Option Int × fd_dev σ
  | 0, _, d => (none, d)
  | n + 1, i, d =>
    let r := acam_test_pattern P K d i
    if r.1 ≠ 1 <<< i then (some (-1), r.2)
    else acam_test_bus_loop P K n (i + 1) r.2

/-- The function `acam_test_bus`: `for (i = 0; i < 28; i++)`. -/
def acam_test_bus {σ : Type} (P : fd_platform σ) (K : fd_consts) (d : fd_dev σ) :
    Option Int × fd_dev σ :=
  acam_test_bus_loop P K 28 0 d

/-- One access to a register of the ACAM: a call of `acam_read_reg` or of
`acam_write_reg`. -/
inductive acam_access where
  | read (reg : Nat)
  | write (reg data : Nat)
  deriving DecidableEq, Repr

/-- The register an access asks for. -/
def acam_access.reg : acam_access → Nat
  | acam_access.read reg => reg
  | acam_access.write reg _ => reg

/-- The device after one access to a register of the ACAM. -/
def acam_do {σ : Type} (P : fd_platform σ) (K : fd_consts) (d : fd_dev σ) :
    acam_access → fd_dev σ
  | acam_access.read reg => (acam_read_reg P K d reg).2
  | acam_access.write reg data => acam_write_reg P K d reg data

/-- The device after a sequence of accesses to registers of the ACAM. -/
def acam_run {σ : Type} (P : fd_platform σ) (K : fd_consts) (d : fd_dev σ)
    (accs : List acam_access) : fd_dev σ :=
  accs.foldl (acam_do P K) d

/-- Number of SPI transactions in a log. -/
def spi_count : List io_event → Nat
  | [] => 0
  | io_event.spi _ _ _ _ :: l => spi_count l + 1
  | _ :: l => spi_count l

/-- Number of accesses of a sequence that ask for a register other than the
cached one, the cache following the accesses. -/
def redrives (cached : Nat) : List acam_access → Nat
  | [] => 0
  | a :: accs => (if a.reg ≠ cached then 1 else 0) + redrives a.reg accs

/-- The device after `j` iterations of the loop of `acam_test_bus` that start at
index `i` and all pass the comparison. -/
def acam_test_state {σ : Type} (P : fd_platform σ) (K : fd_consts) :
    Nat → Nat → fd_dev σ → fd_dev σ
  | 0, _, d => d
  | j + 1, i, d => acam_test_state P K j (i + 1) (acam_test_pattern P K d i).2

/-- The words written to the data register `FD_REG_TDR`, oldest first. -/
def tdr_writes (K : fd_consts) : List io_event → List Nat
  | [] => []
  | io_event.writel data addr :: l =>
    if addr = K.FD_REG_TDR then data :: tdr_writes K l else tdr_writes K l
  | _ :: l => tdr_writes K l

/-- The calibration values that `fdelay_init` installs when the calibration
EEPROM is not readable. -/
def default_calibration (old : fine_delay_calibration) : fine_delay_calibration :=
  { old with
    frr_poly := default_frr_poly
    tdc_zero_offset := 35600
    atmcr_val := Int.ofNat (2 ||| (1000 <<< 4))
    adsfr_val := 56648
    acam_start_offset := 10000
    zero_offset := fun i => if 0 ≤ i ∧ i < 4 then 50000 else old.zero_offset i }

/-- The loop `while (! (fd_readl (FD_REG_GCR) & FD_GCR_DDR_LOCKED)) udelay (1);`
of `fdelay_init`; `fuel` bounds the number of reads of the register, and `none`
means that the lock bit was not seen within `fuel` reads. -/
def wait_ddr_locked {σ : Type} (P : fd_platform σ) (K : fd_consts) :
    Nat → fd_dev σ → Option (fd_dev σ)
  | 0, _ => none
  | fuel + 1, d =>
    let r := fd_readl P d K.FD_REG_GCR
    if r.1 &&& K.FD_GCR_DDR_LOCKED = 0 then
      wait_ddr_locked P K fuel (call_out P r.2 (callee.udelay 1)).2
    else some r.2

/-- The function `fdelay_init`. The result is the value returned and the device
afterwards; `none` means that the wait for the DDR lock did not end within
`fuel` reads. `FD_RESET_HW` is 1 and `FD_RESET_CORE` is 0; `oc_spi_init` has an
empty body; the value returned by `acam_test_bus` is not used. -/
def fdelay_init {σ : Type} (P : fd_platform σ) (K : fd_consts) (fuel : Nat)
    (d : fd_dev σ) : Option (Int × fd_dev σ) :=
  let m := call_out P d callee.malloc
  if m.1 = 0 then some (-1, m.2) else
  let d := { m.2 with acam_addr := 0xff }
  let r := fd_readl P d K.FD_REG_IDR
  if r.1 ≠ K.FDELAY_MAGIC_ID then some (-1, r.2) else
  let e := call_out P r.2 callee.read_calibration_eeprom
  let d := if e.1 < 0 then { e.2 with calib := default_calibration e.2.calib }
    else { e.2 with calib := P.eeprom e.2.io }
  let d := (call_out P d (callee.fd_do_reset 1)).2
  let d := sgpio_init P K d
  let a := call_out P d callee.ad9516_init
  if a.1 < 0 then some (-1, a.2) else
  let t := call_out P a.2 callee.ds18x_init
  if t.1 < 0 then some (-1, t.2) else
  let d := (call_out P t.2 callee.ds18x_read_temp).2
  let d := sgpio_set_dir P K d K.SGPIO_TRIG_SEL 1
  let d := sgpio_set_pin P K d K.SGPIO_TRIG_SEL 1
  let d := [1, 2, 3, 4].foldl
    (fun d i => sgpio_set_dir P K (sgpio_set_pin P K d (K.SGPIO_OUTPUT_EN i) 0)
      (K.SGPIO_OUTPUT_EN i) 1) d
  let d := sgpio_set_dir P K d K.SGPIO_TERM_EN 1
  let d := sgpio_set_pin P K d K.SGPIO_TERM_EN 0
  let d := (call_out P d (callee.fd_do_reset 0)).2
  match wait_ddr_locked P K fuel d with
  | none => none
  | some d =>
    let d := (call_out P d (callee.fd_do_reset 0)).2
    let d := fd_writel P d K.FD_GCR_BYPASS K.FD_REG_GCR
    let d := (acam_test_bus P K d).2
    let d := (call_out P d callee.calibrate_outputs).2
    let d := (call_out P d (callee.acam_configure K.ACAM_RMODE)).2
    let d := fd_writel P d 0 K.FD_REG_GCR
    let d := fd_writel P d (K.FD_TSBCR_PURGE ||| K.FD_TSBCR_RST_SEQ) K.FD_REG_TSBCR
    let d := fd_writel P d (uint32 d.calib.adsfr_val) K.FD_REG_ADSFR
    let d := fd_writel P d (uint32 (3 * d.calib.acam_start_offset)) K.FD_REG_ASOR
    let d := fd_writel P d (uint32 d.calib.atmcr_val) K.FD_REG_ATMCR
    let d := (call_out P d callee.fdelay_set_time).2
    let d := (call_out P d (callee.udelay 1)).2
    let d := fd_writel P d K.FD_GCR_INPUT_EN K.FD_REG_GCR
    some (0, d)

/-- The macro `chan_writel (data, addr)`: `fd_writel (data, channel * 0x100 + addr)`. -/
def chan_writel {σ : Type} (P : fd_platform σ) (d : fd_dev σ) (channel : Int)
    (data addr : Nat) : fd_dev σ :=
  fd_writel P d data (uint32 (channel * 256 + (addr : Int)))

/-- The function `fdelay_configure_output`: the value returned and the device
afterwards. `t0` is the content of the local variable of `fdelay_from_picos`
before its assignments; `x & 0xffffffff` and `x & 0xf` on the two's-complement
`int64_t` field `utc` are written `x % 4294967296` and `x % 16`. -/
def fdelay_configure_output {σ : Type} (P : fd_platform σ) (K : fd_consts)
    (t0 : fdelay_time_t) (d : fd_dev σ) (channel enable : Int)
    (delay_ps width_ps delta_ps : Int) (rep_count : Int) : Int × fd_dev σ :=
  if channel < 1 ∨ channel > 4 then (-1, d) else
  let delay_ps := int64 (delay_ps - int64 (d.calib.zero_offset (channel - 1)))
  let t_start := fdelay_from_picos t0 delay_ps
  let t_end := fdelay_from_picos t0 (int64 (delay_ps + width_ps))
  let t_delta := fdelay_from_picos t0 delta_ps
  let d := chan_writel P d channel (uint32 (d.frr_cur (channel - 1))) K.FD_REG_FRR
  let d := chan_writel P d channel (uint32 (t_start.utc >>> (32 : Nat))) K.FD_REG_U_STARTH
  let d := chan_writel P d channel (uint32 (t_start.utc % 4294967296)) K.FD_REG_U_STARTL
  let d := chan_writel P d channel (uint32 t_start.coarse) K.FD_REG_C_START
  let d := chan_writel P d channel (uint32 t_start.frac) K.FD_REG_F_START
  let d := chan_writel P d channel (uint32 (t_end.utc >>> (32 : Nat))) K.FD_REG_U_ENDH
  let d := chan_writel P d channel (uint32 (t_end.utc % 4294967296)) K.FD_REG_U_ENDL
  let d := chan_writel P d channel (uint32 t_end.coarse) K.FD_REG_C_END
  let d := chan_writel P d channel (uint32 t_end.frac) K.FD_REG_F_END
  let d := chan_writel P d channel (uint32 (t_delta.utc % 16)) K.FD_REG_U_DELTA
  let d := chan_writel P d channel (uint32 t_delta.coarse) K.FD_REG_C_DELTA
  let d := chan_writel P d channel (uint32 t_delta.frac) K.FD_REG_F_DELTA
  let d := chan_writel P d channel
    (K.FD_RCR_REP_CNT_W rep_count ||| (if rep_count < 0 then K.FD_RCR_CONT else 0))
    K.FD_REG_RCR
  let dcr := if int64 (delta_ps - width_ps) < 200000 ∨ width_ps < 200000 then
    K.FD_DCR_NO_FINE else 0
  let d := chan_writel P d channel (dcr ||| K.FD_DCR_UPDATE) K.FD_REG_DCR
  let d := chan_writel P d channel (dcr ||| K.FD_DCR_ENABLE) K.FD_REG_DCR
  let d := sgpio_set_pin P K d (K.SGPIO_OUTPUT_EN channel) (if enable ≠ 0 then 1 else 0)
  (0, d)

/-- Sample values for the constants of the missing headers, used where a
statement needs a concrete device. The theorems that quantify over `fd_consts`
do not depend on them. -/
def sample_consts : fd_consts :=
  { CS_GPIO := 1, MCP_IODIR := 0, MCP_OLAT := 20, MCP_IOCON := 10,
    FD_REG_TDR := 28, FD_REG_TDCSR := 32, FD_TDCSR_READ := 2, FD_TDCSR_WRITE := 1,
    FD_REG_FRR := 0, FD_REG_U_STARTH := 4, FD_REG_U_STARTL := 8, FD_REG_C_START := 12,
    FD_REG_F_START := 16, FD_REG_U_ENDH := 20, FD_REG_U_ENDL := 24, FD_REG_C_END := 28,
    FD_REG_F_END := 32, FD_REG_U_DELTA := 36, FD_REG_C_DELTA := 40, FD_REG_F_DELTA := 44,
    FD_REG_RCR := 48, FD_REG_DCR := 52,
    FD_RCR_REP_CNT_W := fun n => uint32 (n % 65536), FD_RCR_CONT := 65536,
    FD_DCR_NO_FINE := 32, FD_DCR_UPDATE := 4, FD_DCR_ENABLE := 1,
    SGPIO_OUTPUT_EN := fun i => uint32 (2 ^ (6 - i).toNat),
    SGPIO_TRIG_SEL := 64, SGPIO_TERM_EN := 1,
    FD_REG_IDR := 4, FDELAY_MAGIC_ID := 4053720602, FD_REG_GCR := 8,
    FD_GCR_DDR_LOCKED := 64, FD_GCR_BYPASS := 1, FD_GCR_INPUT_EN := 2,
    FD_REG_TSBCR := 96, FD_TSBCR_PURGE := 8192, FD_TSBCR_RST_SEQ := 16384,
    FD_REG_ADSFR := 48, FD_REG_ASOR := 56, FD_REG_ATMCR := 52, ACAM_RMODE := 0 }

/-- A sample chip for concrete statements. Its state is the word last written to
the data register `FD_REG_TDR`; reading that register yields `tdr s`, so that
`tdr` fixes how the data bus answers. The identification register reads the
magic number, the DDR lock bit is set, SPI transactions read back 0, `malloc`
returns a non-null pointer, every other callee returns 0, and the calibration
EEPROM holds `block`. -/
def sample_chip (K : fd_consts) (tdr : Nat → Nat) (block : fine_delay_calibration) :
    fd_platform Nat :=
  { writel := fun s data addr => if addr = K.FD_REG_TDR then data else s
    readl := fun s addr =>
      (if addr = K.FD_REG_TDR then tdr s
       else if addr = K.FD_REG_IDR then K.FDELAY_MAGIC_ID
       else if addr = K.FD_REG_GCR then K.FD_GCR_DDR_LOCKED
       else 0, s)
    spi := fun s _ _ _ => (0, s)
    call := fun s c => (if c = callee.malloc then 1 else 0, s)
    eeprom := fun _ => block }

/-- A calibration block with the default values of `fdelay_init`. -/
def sample_calibration : fine_delay_calibration :=
  default_calibration
    { frr_poly := fun _ => 0, tdc_zero_offset := 0, atmcr_val := 0, adsfr_val := 0,
      acam_start_offset := 0, zero_offset := fun _ => 0 }

/-- A sample device before bring-up: nothing logged, address cache `0xff`. -/
def sample_dev : fd_dev Nat :=
  { io := 0, acam_addr := 255, calib := sample_calibration, frr_cur := fun _ => 0, log := [] }

/-! ## Timestamp arithmetic: theorems -/

/-- The constant `1 << FDELAY_FRAC_BITS` is 4096. -/
theorem one_shl_frac_bits : (2 : Int) ^ FDELAY_FRAC_BITS = 4096 := by
  decide

/-- An arithmetic right shift by `FDELAY_FRAC_BITS` is a floor division by 4096. -/
theorem shr_frac_bits (x : Int) : x >>> FDELAY_FRAC_BITS = x / 4096 := by
  rw [Int.shiftRight_eq_div_pow]; rfl

/-- A value in the range of `int32_t` is stored unchanged. -/
theorem int32_of_range (x : Int) (h0 : -2147483648 ≤ x) (h1 : x < 2147483648) :
    int32 x = x := by
  unfold int32; omega

/-- A value in the range of `int64_t` is stored unchanged. -/
theorem int64_of_range (x : Int) (h0 : -9223372036854775808 ≤ x)
    (h1 : x < 9223372036854775808) : int64 x = x := by
  unfold int64; omega

/-- A value in the range of `uint64_t` is stored unchanged. -/
theorem uint64_of_range (x : Int) (h0 : 0 ≤ x) (h1 : x < 18446744073709551616) :
    uint64 x = x := by
  unfold uint64; omega

/-- The three fields computed by `fdelay_from_picos` for an argument that is
already in the range of `uint64_t`, without the wraps. -/
theorem from_picos_unwrapped (t0 : fdelay_time_t) (ps : Int)
    (h0 : 0 ≤ ps) (h1 : ps < 18446744073709551616) :
    fdelay_from_picos t0 ps =
      { t0 with frac := (ps % 8000) * 4096 / 8000,
                coarse := (ps / 8000) % 125000000,
                utc := ps / 1000000000000 } := by
  have e1 : uint64 ps = ps := uint64_of_range ps h0 h1
  have e2 : uint64 4096 = 4096 := by decide
  have e3 : uint64 (ps % 8000 * 4096) = ps % 8000 * 4096 :=
    uint64_of_range _ (by omega) (by omega)
  have e4 : int32 (ps % 8000 * 4096 / 8000) = ps % 8000 * 4096 / 8000 :=
    int32_of_range _ (by omega) (by omega)
  have e5 : uint64 (ps - ps % 8000) = ps - ps % 8000 :=
    uint64_of_range _ (by omega) (by omega)
  have e6 : (ps - ps % 8000) / 8000 = ps / 8000 := by omega
  have e7 : int32 (ps / 8000 % 125000000) = ps / 8000 % 125000000 :=
    int32_of_range _ (by omega) (by omega)
  have e8 : uint64 (ps / 8000 - ps / 8000 % 125000000) = ps / 8000 - ps / 8000 % 125000000 :=
    uint64_of_range _ (by omega) (by omega)
  have e9 : (ps / 8000 - ps / 8000 % 125000000) / 125000000 = ps / 1000000000000 := by omega
  have e10 : int64 (ps / 1000000000000) = ps / 1000000000000 :=
    int64_of_range _ (by omega) (by omega)
  simp only [fdelay_from_picos, one_shl_frac_bits, e1, e2, e3, e4, e5, e6, e7, e8, e9, e10]

/-- C3: for every unsigned 64-bit `ps`, `fdelay_from_picos ps` has
`frac = floor ((ps mod 8000) * 2^12 / 8000)`, `coarse = (ps div 8000) mod 125_000_000`
and `utc = ps div 10^12`, and the result is normalized. -/
theorem from_picos_fields (t0 : fdelay_time_t) (ps : Int)
    (h0 : 0 ≤ ps) (h1 : ps < 18446744073709551616) :
    (fdelay_from_picos t0 ps).frac = (ps % 8000) * 4096 / 8000 ∧
    (fdelay_from_picos t0 ps).coarse = (ps / 8000) % 125000000 ∧
    (fdelay_from_picos t0 ps).utc = ps / 1000000000000 ∧
    normalized (fdelay_from_picos t0 ps) := by
  rw [from_picos_unwrapped t0 ps h0 h1]
  refine ⟨rfl, rfl, rfl, ?_⟩
  simp only [normalized]
  omega

/-- C3, concrete scenarios: `from_picos 8000` is `(utc 0, coarse 1, frac 0)` and
`from_picos 10^12` is `(utc 1, coarse 0, frac 0)`. -/
theorem from_picos_fields_witness :
    ((fdelay_from_picos ⟨7, 7, 7, 7, 7⟩ 8000).frac = 0 ∧
      (fdelay_from_picos ⟨7, 7, 7, 7, 7⟩ 8000).coarse = 1 ∧
      (fdelay_from_picos ⟨7, 7, 7, 7, 7⟩ 8000).utc = 0) ∧
    ((fdelay_from_picos ⟨7, 7, 7, 7, 7⟩ 1000000000000).frac = 0 ∧
      (fdelay_from_picos ⟨7, 7, 7, 7, 7⟩ 1000000000000).coarse = 0 ∧
      (fdelay_from_picos ⟨7, 7, 7, 7, 7⟩ 1000000000000).utc = 1) := by
  have a := from_picos_fields ⟨7, 7, 7, 7, 7⟩ 8000 (by decide) (by decide)
  have b := from_picos_fields ⟨7, 7, 7, 7, 7⟩ 1000000000000 (by decide) (by decide)
  refine ⟨⟨?_, ?_, ?_⟩, ⟨?_, ?_, ?_⟩⟩
  · rw [a.1]; decide
  · rw [a.2.1]; decide
  · rw [a.2.2.1]; decide
  · rw [b.1]; decide
  · rw [b.2.1]; decide
  · rw [b.2.2.1]; decide

/-- For a normalized timestamp whose exact picosecond value fits the signed
64-bit accumulator, `fdelay_to_picos` computes that exact value. -/
theorem to_picos_of_fits (t : fdelay_time_t) (hn : normalized t) (hu : 0 ≤ t.utc)
    (hfit : exact_picos t < 9223372036854775808) :
    fdelay_to_picos t = exact_picos t := by
  obtain ⟨hf0, hf1, hc0, hc1⟩ := hn
  unfold exact_picos at hfit
  have e1 : int64 t.frac = t.frac := int64_of_range _ (by omega) (by omega)
  have e2 : int64 (t.frac * 8000) = t.frac * 8000 := int64_of_range _ (by omega) (by omega)
  have e3 : int64 t.coarse = t.coarse := int64_of_range _ (by omega) (by omega)
  have e4 : int64 (t.coarse * 8000) = t.coarse * 8000 :=
    int64_of_range _ (by omega) (by omega)
  have e5 : int64 t.utc = t.utc := int64_of_range _ (by omega) (by omega)
  have e6 : int64 (t.utc * 1000000000000) = t.utc * 1000000000000 :=
    int64_of_range _ (by omega) (by omega)
  have e7 : int64 (t.frac * 8000 / 4096 + t.coarse * 8000)
      = t.frac * 8000 / 4096 + t.coarse * 8000 :=
    int64_of_range _ (by omega) (by omega)
  have e8 : int64 (t.frac * 8000 / 4096 + t.coarse * 8000 + t.utc * 1000000000000)
      = t.frac * 8000 / 4096 + t.coarse * 8000 + t.utc * 1000000000000 :=
    int64_of_range _ (by omega) (by omega)
  simp only [fdelay_to_picos, exact_picos, shr_frac_bits, e1, e2, e3, e4, e5, e6, e7, e8]

/-- C1 (as amended): for every normalized timestamp `t` with `utc ≥ 0` whose
picosecond value does not overflow the signed 64-bit accumulator,
`fdelay_from_picos (fdelay_to_picos t)` has the same `utc` and `coarse` as `t`;
its `frac` equals `t.frac` when `t.frac` is a multiple of 64 and `t.frac - 1`
otherwise. -/
theorem from_to_picos_roundtrip (t0 t : fdelay_time_t) (hn : normalized t)
    (hu : 0 ≤ t.utc) (hfit : exact_picos t < 9223372036854775808) :
    (fdelay_from_picos t0 (fdelay_to_picos t)).utc = t.utc ∧
    (fdelay_from_picos t0 (fdelay_to_picos t)).coarse = t.coarse ∧
    (fdelay_from_picos t0 (fdelay_to_picos t)).frac
      = if t.frac % 64 = 0 then t.frac else t.frac - 1 := by
  rw [to_picos_of_fits t hn hu hfit]
  obtain ⟨hf0, hf1, hc0, hc1⟩ := hn
  have hps0 : 0 ≤ exact_picos t := by unfold exact_picos; omega
  rw [from_picos_unwrapped t0 _ hps0 (by omega)]
  unfold exact_picos at *
  have hq0 : 0 ≤ t.frac * 8000 / 4096 := by omega
  have hq1 : t.frac * 8000 / 4096 < 8000 := by omega
  have d1 : (t.frac * 8000 / 4096 + t.coarse * 8000 + t.utc * 1000000000000) / 8000
      = t.coarse + t.utc * 125000000 := by omega
  have d2 : (t.frac * 8000 / 4096 + t.coarse * 8000 + t.utc * 1000000000000) % 8000
      = t.frac * 8000 / 4096 := by omega
  refine ⟨?_, ?_, ?_⟩
  · show (t.frac * 8000 / 4096 + t.coarse * 8000 + t.utc * 1000000000000) / 1000000000000
      = t.utc
    omega
  · show (t.frac * 8000 / 4096 + t.coarse * 8000 + t.utc * 1000000000000) / 8000 % 125000000
      = t.coarse
    rw [d1]; omega
  · show (t.frac * 8000 / 4096 + t.coarse * 8000 + t.utc * 1000000000000) % 8000 * 4096 / 8000
      = if t.frac % 64 = 0 then t.frac else t.frac - 1
    rw [d2]
    split
    · omega
    · have h3 : t.frac * 8000 / 4096 * 64 < 125 * t.frac := by omega
      omega

/-- C1, witness of the amended round trip at `utc = 3`, `coarse = 124_999_999`,
`frac = 4095` (frac drops to 4094) . -/
theorem from_to_picos_roundtrip_witness :
    (fdelay_from_picos ⟨0, 0, 0, 0, 0⟩ (fdelay_to_picos ⟨3, 124999999, 4095, 0, 0⟩)).utc = 3 ∧
    (fdelay_from_picos ⟨0, 0, 0, 0, 0⟩ (fdelay_to_picos ⟨3, 124999999, 4095, 0, 0⟩)).coarse
      = 124999999 ∧
    (fdelay_from_picos ⟨0, 0, 0, 0, 0⟩ (fdelay_to_picos ⟨3, 124999999, 4095, 0, 0⟩)).frac
      = 4094 :=
  from_to_picos_roundtrip ⟨0, 0, 0, 0, 0⟩ ⟨3, 124999999, 4095, 0, 0⟩
    (by decide) (by decide) (by decide)

/-- C1, counterexample to the exact round trip: the normalized timestamp
`(utc 0, coarse 0, frac 1)` converts to 1 ps, which converts back to `frac = 0`. -/
theorem from_to_picos_roundtrip_fails :
    normalized ⟨0, 0, 1, 0, 0⟩ ∧
    exact_picos ⟨0, 0, 1, 0, 0⟩ < 9223372036854775808 ∧
    fdelay_to_picos ⟨0, 0, 1, 0, 0⟩ = 1 ∧
    (fdelay_from_picos ⟨0, 0, 0, 0, 0⟩ (fdelay_to_picos ⟨0, 0, 1, 0, 0⟩)).frac = 0 ∧
    (fdelay_from_picos ⟨0, 0, 0, 0, 0⟩ (fdelay_to_picos ⟨0, 0, 1, 0, 0⟩)).frac
      ≠ (⟨0, 0, 1, 0, 0⟩ : fdelay_time_t).frac := by
  decide

/-- C2, the code at a failing input: a capture at `(utc 5, coarse 2, frac 0)`
minus the default TDC zero offset of 35600 ps, `(utc 0, coarse 4, frac 1843)`.
Both are normalized and the first is the larger, yet the coarse borrow
increments `utc` to 6 and the result is not the true difference. -/
theorem ts_sub_borrow_increments_utc :
    normalized ⟨5, 2, 0, 7, 1⟩ ∧
    fdelay_from_picos ⟨0, 0, 0, 0, 0⟩ 35600 = ⟨0, 4, 1843, 0, 0⟩ ∧
    val ⟨0, 4, 1843, 0, 0⟩ ≤ val ⟨5, 2, 0, 7, 1⟩ ∧
    ts_sub ⟨5, 2, 0, 7, 1⟩ ⟨0, 4, 1843, 0, 0⟩ = ⟨6, 124999997, 2253, 7, 1⟩ ∧
    val (ts_sub ⟨5, 2, 0, 7, 1⟩ ⟨0, 4, 1843, 0, 0⟩)
      ≠ val ⟨5, 2, 0, 7, 1⟩ - val ⟨0, 4, 1843, 0, 0⟩ := by
  decide

/-- C4: zero is a right identity of subtraction: for every normalized `t`,
subtracting a timestamp with `utc = 0`, `coarse = 0` and `frac = 0` returns `t`
with all its fields, `seq_id` and `channel` included, unchanged. -/
theorem ts_sub_zero (t : fdelay_time_t) (seq ch : Int) (hn : normalized t) :
    ts_sub t ⟨0, 0, 0, seq, ch⟩ = t := by
  obtain ⟨hf0, hf1, hc0, hc1⟩ := hn
  have e1 : int32 (t.frac - 0) = t.frac := by unfold int32; omega
  have e2 : int32 (t.coarse - 0) = t.coarse := by unfold int32; omega
  have n1 : ¬ t.frac < 0 := by omega
  have n2 : ¬ t.coarse < 0 := by omega
  simp only [ts_sub, e1, e2, n1, n2, if_false]

/-- C4, witness: subtracting zero from `(utc 5, coarse 2, frac 4095, seq 7, ch 1)`. -/
theorem ts_sub_zero_witness :
    ts_sub ⟨5, 2, 4095, 7, 1⟩ ⟨0, 0, 0, 0, 0⟩ = ⟨5, 2, 4095, 7, 1⟩ :=
  ts_sub_zero ⟨5, 2, 4095, 7, 1⟩ 0 0 (by decide)

/-- C5 (as amended): for every normalized timestamp with
`0 ≤ utc ≤ 9_223_371` seconds (about 106 days), the value computed by
`fdelay_to_picos` in the signed 64-bit accumulator is the exact integer
`floor (frac * 8000 / 2^12) + coarse * 8000 + utc * 10^12`. -/
theorem to_picos_exact (t : fdelay_time_t) (hn : normalized t)
    (hu0 : 0 ≤ t.utc) (hu1 : t.utc ≤ 9223371) :
    fdelay_to_picos t = t.frac * 8000 / 4096 + t.coarse * 8000 + t.utc * 1000000000000 := by
  have hfit : exact_picos t < 9223372036854775808 := by
    obtain ⟨hf0, hf1, hc0, hc1⟩ := hn
    unfold exact_picos; omega
  exact to_picos_of_fits t hn hu0 hfit

/-- C5, witness at the largest admitted timestamp. -/
theorem to_picos_exact_witness :
    fdelay_to_picos ⟨9223371, 124999999, 4095, 0, 0⟩
      = 4095 * 8000 / 4096 + 124999999 * 8000 + 9223371 * 1000000000000 :=
  to_picos_exact ⟨9223371, 124999999, 4095, 0, 0⟩ (by decide) (by decide) (by decide)

/-- C5, counterexample at `utc = 10^8` seconds: the exact value `10^20` does not
fit 64 bits and the accumulator holds `7766279631452241920`. -/
theorem to_picos_overflows :
    normalized ⟨100000000, 0, 0, 0, 0⟩ ∧
    exact_picos ⟨100000000, 0, 0, 0, 0⟩ = 100000000000000000000 ∧
    fdelay_to_picos ⟨100000000, 0, 0, 0, 0⟩ = 7766279631452241920 ∧
    fdelay_to_picos ⟨100000000, 0, 0, 0, 0⟩ ≠ exact_picos ⟨100000000, 0, 0, 0, 0⟩ := by
  decide

/-- C6: subtraction preserves normalization: for normalized `a` and `b`, the
result of `ts_sub a b` has `0 ≤ frac < 4096` and `0 ≤ coarse < 125_000_000`. -/
theorem ts_sub_normalized (a b : fdelay_time_t) (ha : normalized a) (hb : normalized b) :
    normalized (ts_sub a b) := by
  obtain ⟨af0, af1, ac0, ac1⟩ := ha
  obtain ⟨bf0, bf1, bc0, bc1⟩ := hb
  simp only [ts_sub, normalized]
  split <;> split <;> simp only [int32] at * <;> omega

/-- C6, witness with a frac borrow followed by a coarse borrow:
`(1, 0, 0) - (0, 124_999_999, 1)` has `coarse = 0` and `frac = 4095`. -/
theorem ts_sub_normalized_witness :
    normalized (ts_sub ⟨1, 0, 0, 0, 0⟩ ⟨0, 124999999, 1, 0, 0⟩) ∧
    (ts_sub ⟨1, 0, 0, 0, 0⟩ ⟨0, 124999999, 1, 0, 0⟩).coarse = 0 ∧
    (ts_sub ⟨1, 0, 0, 0, 0⟩ ⟨0, 124999999, 1, 0, 0⟩).frac = 4095 :=
  ⟨ts_sub_normalized ⟨1, 0, 0, 0, 0⟩ ⟨0, 124999999, 1, 0, 0⟩ (by decide) (by decide),
    by decide, by decide⟩

/-! ## Double arithmetic: theorems -/

/-- The rounding to an integer lies between the floor and the floor plus one. -/
theorem round_even_bounds (y : ℚ) : ⌊y⌋ ≤ round_even y ∧ round_even y ≤ ⌊y⌋ + 1 := by
  unfold round_even
  split
  · omega
  · split
    · omega
    · split <;> omega

/-- An integer rounds to itself. -/
theorem round_even_int (m : Int) : round_even (m : ℚ) = m := by
  unfold round_even
  simp

/-- Rounding to an integer is monotone. -/
theorem round_even_mono {y z : ℚ} (h : y ≤ z) : round_even y ≤ round_even z := by
  have hf : ⌊y⌋ ≤ ⌊z⌋ := Int.floor_le_floor h
  rcases hf.lt_or_eq with hlt | heq
  · have := (round_even_bounds y).2
    have := (round_even_bounds z).1
    omega
  · have hfr : y - (⌊y⌋ : ℚ) ≤ z - (⌊z⌋ : ℚ) := by rw [heq]; linarith
    unfold round_even
    rw [heq] at hfr ⊢
    by_cases h1 : y - (⌊z⌋ : ℚ) < 1 / 2
    · rw [if_pos h1]
      split_ifs <;> omega
    · rw [if_neg h1]
      have h1' : ¬ z - (⌊z⌋ : ℚ) < 1 / 2 := by
        intro hc; exact h1 (lt_of_le_of_lt hfr hc)
      rw [if_neg h1']
      by_cases h2 : 1 / 2 < y - (⌊z⌋ : ℚ)
      · rw [if_pos h2, if_pos (lt_of_lt_of_le h2 hfr)]
      · rw [if_neg h2]
        split_ifs <;> omega


/-- The spacing of the binary64 numbers is positive. -/
theorem ulp_pos (q : Int) : (0 : ℚ) < 2 ^ q := zpow_pos (by norm_num) q

/-- A multiple of the spacing `2^q` that is at least `x` is at least the rounding
of `x` with that spacing. -/
theorem round_le_grid (q m : Int) (x : ℚ) (h : x ≤ (m : ℚ) * 2 ^ q) :
    (round_even (x / 2 ^ q) : ℚ) * 2 ^ q ≤ (m : ℚ) * 2 ^ q := by
  have hq := ulp_pos q
  have h1 : x / 2 ^ q ≤ (m : ℚ) := by rw [div_le_iff₀ hq]; exact h
  have h2 : round_even (x / 2 ^ q) ≤ m := by
    have := round_even_mono h1
    rwa [round_even_int] at this
  have h3 : (round_even (x / 2 ^ q) : ℚ) ≤ (m : ℚ) := by exact_mod_cast h2
  exact mul_le_mul_of_nonneg_right h3 (le_of_lt hq)

/-- A multiple of the spacing `2^q` that is at most `x` is at most the rounding
of `x` with that spacing. -/
theorem grid_le_round (q m : Int) (x : ℚ) (h : (m : ℚ) * 2 ^ q ≤ x) :
    (m : ℚ) * 2 ^ q ≤ (round_even (x / 2 ^ q) : ℚ) * 2 ^ q := by
  have hq := ulp_pos q
  have h1 : (m : ℚ) ≤ x / 2 ^ q := by rw [le_div_iff₀ hq]; exact h
  have h2 : m ≤ round_even (x / 2 ^ q) := by
    have := round_even_mono h1
    rwa [round_even_int] at this
  have h3 : (m : ℚ) ≤ (round_even (x / 2 ^ q) : ℚ) := by exact_mod_cast h2
  exact mul_le_mul_of_nonneg_right h3 (le_of_lt hq)

/-- A power of two is a multiple of every smaller power of two. -/
theorem zpow_on_grid (E q : Int) (h : q ≤ E) :
    ∃ m : Int, (2 : ℚ) ^ E = (m : ℚ) * 2 ^ q := by
  refine ⟨2 ^ (E - q).toNat, ?_⟩
  have e : E = ((E - q).toNat : Int) + q := by omega
  have h2 : (2 : ℚ) ≠ 0 := by norm_num
  nth_rewrite 1 [e]
  rw [zpow_add₀ h2, zpow_natCast]
  push_cast
  rfl

/-- A number `g` that lies on the grids of both `x` and `y` and between them
separates their roundings. -/
theorem round_double_sep (x y g : ℚ) (hx : x ≤ g) (hy : g ≤ y)
    (gx : ∃ m : Int, g = (m : ℚ) * 2 ^ double_ulp_exp x)
    (gy : ∃ m : Int, g = (m : ℚ) * 2 ^ double_ulp_exp y) :
    round_double x ≤ round_double y := by
  obtain ⟨m, hm⟩ := gx
  obtain ⟨n, hn⟩ := gy
  unfold round_double
  calc (round_even (x / 2 ^ double_ulp_exp x) : ℚ) * 2 ^ double_ulp_exp x
      ≤ (m : ℚ) * 2 ^ double_ulp_exp x := round_le_grid _ m x (by rw [← hm]; exact hx)
    _ = g := hm.symm
    _ = (n : ℚ) * 2 ^ double_ulp_exp y := hn
    _ ≤ _ := grid_le_round _ n y (by rw [← hn]; exact hy)

/-- The rounding of `double` operations is monotone. -/
theorem round_double_mono {x y : ℚ} (h : x ≤ y) : round_double x ≤ round_double y := by
  by_cases hq : double_ulp_exp x = double_ulp_exp y
  · unfold round_double
    rw [hq]
    have hpos := ulp_pos (double_ulp_exp y)
    have h1 : x / 2 ^ double_ulp_exp y ≤ y / 2 ^ double_ulp_exp y :=
      div_le_div_of_nonneg_right h (le_of_lt hpos)
    have h2 : (round_even (x / 2 ^ double_ulp_exp y) : ℚ)
        ≤ (round_even (y / 2 ^ double_ulp_exp y) : ℚ) := by
      exact_mod_cast round_even_mono h1
    exact mul_le_mul_of_nonneg_right h2 (le_of_lt hpos)
  · have hb : (1 : Nat) < 2 := by decide
    rcases le_or_lt x 0 with hx0 | hx0
    · rcases le_or_lt 0 y with hy0 | hy0
      · -- zero separates
        exact round_double_sep x y 0 hx0 hy0 ⟨0, by simp⟩ ⟨0, by simp⟩
      · -- both negative: the separating point is `-2 ^ log |x|`
        have hxn : x < 0 := lt_of_le_of_lt h hy0
        have hax : |x| = -x := abs_of_neg hxn
        have hay : |y| = -y := abs_of_neg hy0
        have hle : Int.log 2 |y| ≤ Int.log 2 |x| :=
          Int.log_mono_right (by rw [hay]; linarith) (by rw [hax, hay]; linarith)
        have hlt : Int.log 2 |y| < Int.log 2 |x| := by
          rcases hle.lt_or_eq with h' | h'
          · exact h'
          · exfalso; apply hq; unfold double_ulp_exp; rw [h']
        have h1 : (2 : ℚ) ^ Int.log 2 |x| ≤ |x| := by
          have := Int.zpow_log_le_self (R := ℚ) hb (by rw [hax]; linarith : (0 : ℚ) < |x|)
          exact_mod_cast this
        have h2 : |y| < (2 : ℚ) ^ (Int.log 2 |y| + 1) := by
          have := Int.lt_zpow_succ_log_self (R := ℚ) hb |y|
          exact_mod_cast this
        have h3 : (2 : ℚ) ^ (Int.log 2 |y| + 1) ≤ 2 ^ Int.log 2 |x| :=
          zpow_le_zpow_right₀ (by norm_num) (by omega)
        have gx : ∃ m : Int, -(2 : ℚ) ^ Int.log 2 |x| = (m : ℚ) * 2 ^ double_ulp_exp x := by
          obtain ⟨m, hm⟩ := zpow_on_grid (Int.log 2 |x|) (double_ulp_exp x)
            (by unfold double_ulp_exp at hq ⊢; omega)
          exact ⟨-m, by rw [hm]; push_cast; ring⟩
        have gy : ∃ m : Int, -(2 : ℚ) ^ Int.log 2 |x| = (m : ℚ) * 2 ^ double_ulp_exp y := by
          obtain ⟨m, hm⟩ := zpow_on_grid (Int.log 2 |x|) (double_ulp_exp y)
            (by unfold double_ulp_exp at hq ⊢; omega)
          exact ⟨-m, by rw [hm]; push_cast; ring⟩
        exact round_double_sep x y (-(2 : ℚ) ^ Int.log 2 |x|)
          (by linarith) (by linarith) gx gy
    · -- both positive: the separating point is `2 ^ log |y|`
      have hy0 : 0 < y := lt_of_lt_of_le hx0 h
      have hax : |x| = x := abs_of_pos hx0
      have hay : |y| = y := abs_of_pos hy0
      have hle : Int.log 2 |x| ≤ Int.log 2 |y| :=
        Int.log_mono_right (by rw [hax]; exact hx0) (by rw [hax, hay]; exact h)
      have hlt : Int.log 2 |x| < Int.log 2 |y| := by
        rcases hle.lt_or_eq with h' | h'
        · exact h'
        · exfalso; apply hq; unfold double_ulp_exp; rw [h']
      have h1 : (2 : ℚ) ^ Int.log 2 |y| ≤ |y| := by
        have := Int.zpow_log_le_self (R := ℚ) hb (by rw [hay]; exact hy0 : (0 : ℚ) < |y|)
        exact_mod_cast this
      have h2 : |x| < (2 : ℚ) ^ (Int.log 2 |x| + 1) := by
        have := Int.lt_zpow_succ_log_self (R := ℚ) hb |x|
        exact_mod_cast this
      have h3 : (2 : ℚ) ^ (Int.log 2 |x| + 1) ≤ 2 ^ Int.log 2 |y| :=
        zpow_le_zpow_right₀ (by norm_num) (by omega)
      have gx := zpow_on_grid (Int.log 2 |y|) (double_ulp_exp x)
        (by unfold double_ulp_exp at hq ⊢; omega)
      have gy := zpow_on_grid (Int.log 2 |y|) (double_ulp_exp y)
        (by unfold double_ulp_exp at hq ⊢; omega)
      exact round_double_sep x y ((2 : ℚ) ^ Int.log 2 |y|)
        (by linarith) (by linarith) gx gy

/-- The binary logarithm of a number in the binade `[2^e, 2^(e+1))` is `e`. -/
theorem log2_eq (x : ℚ) (e : Int) (h1 : (2 : ℚ) ^ e ≤ |x|) (h2 : |x| < (2 : ℚ) ^ (e + 1)) :
    Int.log 2 |x| = e := by
  have hb : (1 : Nat) < 2 := by decide
  have hpos : (0 : ℚ) < |x| := lt_of_lt_of_le (ulp_pos e) h1
  have a1 : e ≤ Int.log 2 |x| := by
    rw [← Int.zpow_le_iff_le_log hb hpos]
    exact_mod_cast h1
  have a2 : Int.log 2 |x| < e + 1 := by
    rw [← Int.lt_zpow_iff_log_lt hb hpos]
    exact_mod_cast h2
  omega

/-- A number closer than one half to an integer rounds to that integer. -/
theorem round_even_eq (y : ℚ) (m : Int) (h : |y - (m : ℚ)| < 1 / 2) : round_even y = m := by
  obtain ⟨h1, h2⟩ := abs_lt.mp h
  have hf1 : m - 1 ≤ ⌊y⌋ := by
    rw [Int.le_floor]; push_cast; linarith
  have hf2 : ⌊y⌋ < m + 1 := by
    rw [Int.floor_lt]; push_cast; linarith
  unfold round_even
  rcases (show ⌊y⌋ = m - 1 ∨ ⌊y⌋ = m by omega) with hf | hf
  · rw [hf]
    have hfr : ¬ y - ((m - 1 : Int) : ℚ) < 1 / 2 := by push_cast; linarith
    have hfr2 : 1 / 2 < y - ((m - 1 : Int) : ℚ) := by push_cast; linarith
    rw [if_neg hfr, if_pos hfr2]
    omega
  · rw [hf]
    have hfr : y - (m : ℚ) < 1 / 2 := by linarith
    rw [if_pos hfr]

/-- The rounding of a number in the binade `[2^e, 2^(e+1))` whose quotient by the
spacing is closer than one half to the integer `m`. -/
theorem round_double_eq (x : ℚ) (e m : Int) (h1 : (2 : ℚ) ^ e ≤ |x|)
    (h2 : |x| < (2 : ℚ) ^ (e + 1))
    (h : |x / 2 ^ max (e - 52) (-1074) - (m : ℚ)| < 1 / 2) :
    round_double x = (m : ℚ) * 2 ^ max (e - 52) (-1074) := by
  unfold round_double double_ulp_exp
  rw [log2_eq x e h1 h2, round_even_eq _ m h]

/-- Zero is a binary64 number. -/
theorem round_double_zero : round_double 0 = 0 := by
  unfold round_double
  simp [round_even]

/-- An integer of magnitude below `2^53` is a binary64 number. -/
theorem round_double_int (n : Int)
    (hn : -9007199254740992 < n ∧ n < 9007199254740992) : round_double (n : ℚ) = n := by
  have h : |n| < 9007199254740992 := abs_lt.mpr hn
  by_cases h0 : n = 0
  · subst h0; simpa using round_double_zero
  have hb : (1 : Nat) < 2 := by decide
  have hpos : (0 : ℚ) < |(n : ℚ)| := abs_pos.mpr (by exact_mod_cast h0)
  have hlog : Int.log 2 |(n : ℚ)| < 53 := by
    rw [← Int.lt_zpow_iff_log_lt hb hpos]
    have : |(n : ℚ)| < 9007199254740992 := by exact_mod_cast h
    norm_num
    exact this
  have hq : double_ulp_exp (n : ℚ) ≤ 0 := by unfold double_ulp_exp; omega
  obtain ⟨k, hk⟩ : ∃ k : Nat, double_ulp_exp (n : ℚ) = -(k : Int) :=
    ⟨(-double_ulp_exp (n : ℚ)).toNat, by omega⟩
  unfold round_double
  rw [hk]
  have h2 : (2 : ℚ) ≠ 0 := by norm_num
  have e1 : (n : ℚ) / 2 ^ (-(k : Int)) = ((n * 2 ^ k : Int) : ℚ) := by
    rw [zpow_neg, zpow_natCast]
    push_cast
    field_simp
  rw [e1, round_even_int, zpow_neg, zpow_natCast]
  push_cast
  field_simp

/-- An integer of magnitude below `2^53` is a finite binary64 number. -/
theorem is_double_int (n : Int)
    (hn : -9007199254740992 < n ∧ n < 9007199254740992) : is_double (n : ℚ) := by
  refine ⟨round_double_int n hn, ?_⟩
  have h1 : |(n : ℚ)| < 9007199254740992 := by exact_mod_cast abs_lt.mpr hn
  have h2 : (9007199254740992 : ℚ) < 2 ^ 1024 := by norm_num
  exact lt_trans h1 h2

/-! ## Calibration: theorems -/

/-- A product of two bounded integers is bounded by the product of the bounds. -/
theorem abs_mul_le_of_abs_le (a b A B : Int) (ha : |a| ≤ A) (hb : |b| ≤ B) :
    |a * b| ≤ A * B := by
  rw [abs_mul]
  exact mul_le_mul ha hb (abs_nonneg b) (le_trans (abs_nonneg a) ha)

/-- C9: for coefficients with `|c_i| ≤ 10^13` and a temperature with `|t| ≤ 150`,
`eval_poly` returns exactly `floor ((c0 * t^2 + c1 * t + c2) / 2^32)` computed over
unbounded integers (stated both with the floor division of `Int` and by the two
inequalities that characterise the floor). -/
theorem eval_poly_exact (coef : Nat → Int) (x : Int)
    (h0 : |coef 0| ≤ 10000000000000) (h1 : |coef 1| ≤ 10000000000000)
    (h2 : |coef 2| ≤ 10000000000000) (hx : |x| ≤ 150) :
    eval_poly coef x = (coef 0 * x ^ 2 + coef 1 * x + coef 2) / 4294967296 ∧
    eval_poly coef x * 4294967296 ≤ coef 0 * x ^ 2 + coef 1 * x + coef 2 ∧
    coef 0 * x ^ 2 + coef 1 * x + coef 2 < (eval_poly coef x + 1) * 4294967296 := by
  have b1 := abs_le.mp (abs_mul_le_of_abs_le _ _ _ _ h0 hx)
  have b2 := abs_le.mp (abs_mul_le_of_abs_le _ _ _ _ (abs_mul_le_of_abs_le _ _ _ _ h0 hx) hx)
  have b3 := abs_le.mp (abs_mul_le_of_abs_le _ _ _ _ h1 hx)
  have b4 := abs_le.mp h2
  have bx := abs_le.mp hx
  have e0 : int64 x = x := int64_of_range _ (by omega) (by omega)
  have e1 : int64 (coef 0 * x) = coef 0 * x := int64_of_range _ (by omega) (by omega)
  have e2 : int64 (coef 0 * x * x) = coef 0 * x * x := int64_of_range _ (by omega) (by omega)
  have e3 : int64 (coef 1 * x) = coef 1 * x := int64_of_range _ (by omega) (by omega)
  have e4 : int64 (coef 0 * x * x + coef 1 * x) = coef 0 * x * x + coef 1 * x :=
    int64_of_range _ (by omega) (by omega)
  have e5 : int64 (coef 0 * x * x + coef 1 * x + coef 2) = coef 0 * x * x + coef 1 * x + coef 2 :=
    int64_of_range _ (by omega) (by omega)
  have e6 : (coef 0 * x * x + coef 1 * x + coef 2) >>> (32 : Nat)
      = (coef 0 * x * x + coef 1 * x + coef 2) / 4294967296 := by
    exact (Int.shiftRight_eq_div_pow _ 32).trans rfl
  have e7 : int32 ((coef 0 * x * x + coef 1 * x + coef 2) / 4294967296)
      = (coef 0 * x * x + coef 1 * x + coef 2) / 4294967296 :=
    int32_of_range _ (by omega) (by omega)
  have e8 : coef 0 * x ^ 2 = coef 0 * x * x := by ring
  simp only [eval_poly, e0, e1, e2, e3, e4, e5, e6, e7, e8]
  refine ⟨trivial, ?_, ?_⟩ <;> omega

/-- C9, witness: the default coefficients at `t = 0` give
`3801939743082 >> 32 = 885`. -/
theorem eval_poly_exact_witness :
    eval_poly default_frr_poly 0 = 885 ∧
    eval_poly default_frr_poly 0 = 3801939743082 / 4294967296 := by
  have h := eval_poly_exact default_frr_poly 0 (by decide) (by decide) (by decide) (by decide)
  refine ⟨?_, ?_⟩
  · rw [h.1]; decide
  · rw [h.1]; decide

/-- One shot whose operations do not round adds its reading to `acc`. -/
theorem measure_shot_fst (acam_bin : ℚ) (acam_read : Nat → Nat) (st : ℚ × (Nat → ℚ))
    (i : Nat)
    (h1 : round_double (((acam_read i &&& 0x1ffff : Nat) : ℚ) * acam_bin)
      = ((acam_read i &&& 0x1ffff : Nat) : ℚ) * acam_bin)
    (h2 : round_double (reading acam_bin acam_read i) = reading acam_bin acam_read i)
    (h3 : round_double (st.1 + reading acam_bin acam_read i)
      = st.1 + reading acam_bin acam_read i) :
    (measure_shot round_double acam_bin acam_read st i).1
      = st.1 + reading acam_bin acam_read i := by
  unfold reading at h2
  simp only [measure_shot, Nat.shiftRight_zero, h1, h2]
  exact h3

/-- One shot whose operations do not round stores its reading in `rec[i]`. -/
theorem measure_shot_snd (acam_bin : ℚ) (acam_read : Nat → Nat) (st : ℚ × (Nat → ℚ))
    (i : Nat)
    (h1 : round_double (((acam_read i &&& 0x1ffff : Nat) : ℚ) * acam_bin)
      = ((acam_read i &&& 0x1ffff : Nat) : ℚ) * acam_bin)
    (h2 : round_double (reading acam_bin acam_read i) = reading acam_bin acam_read i) :
    (measure_shot round_double acam_bin acam_read st i).2
      = Function.update st.2 i (reading acam_bin acam_read i) := by
  unfold reading at h2
  simp only [measure_shot, Nat.shiftRight_zero, h1, h2]
  rfl

/-- State of the measurement loop of `measure_output_delay` after `m` of `n` shots
none of which rounds: `acc` is the sum of the readings and `rec` holds them at
the indices below `m`. -/
theorem measure_loop_state (acam_bin : ℚ) (rec0 : Nat → ℚ) (acam_read : Nat → Nat) (n : Nat)
    (hex : no_rounding acam_bin acam_read n) (m : Nat) (hm : m ≤ n) :
    ((List.range m).foldl (measure_shot round_double acam_bin acam_read) (0, rec0)).1
      = reading_sum acam_bin acam_read m ∧
    ∀ i, i < m →
      ((List.range m).foldl (measure_shot round_double acam_bin acam_read) (0, rec0)).2 i
        = reading acam_bin acam_read i := by
  induction m with
  | zero => simp [reading_sum]
  | succ m ih =>
    rw [List.range_succ, List.foldl_append, List.foldl_cons, List.foldl_nil]
    obtain ⟨ih1, ih2⟩ := ih (by omega)
    obtain ⟨a1, a2, a3, _⟩ := hex.1 m (by omega)
    refine ⟨?_, ?_⟩
    · rw [measure_shot_fst _ _ _ _ a1.1 a2.1 (by rw [ih1]; exact a3.1), ih1]
      unfold reading_sum
      rw [Finset.sum_range_succ]
    · intro i hi
      rw [measure_shot_snd _ _ _ _ a1.1 a2.1]
      by_cases h : i = m
      · subst h
        rw [Function.update_same]
      · rw [Function.update_noteq h]
        exact ih2 i (by omega)

/-- State of the second loop of `measure_output_delay` after `m` of `n` shots none
of which rounds: `std` is the sum of the squared deviations from the mean. -/
theorem deviation_loop_state (acam_bin : ℚ) (rec_ : Nat → ℚ) (acam_read : Nat → Nat) (n : Nat)
    (hex : no_rounding acam_bin acam_read n)
    (hrec : ∀ i, i < n → rec_ i = reading acam_bin acam_read i) (m : Nat) (hm : m ≤ n) :
    (List.range m).foldl (deviation_shot round_double rec_ (exact_mean acam_bin acam_read n)) 0
      = deviation_sum acam_bin acam_read n m := by
  induction m with
  | zero => simp [deviation_sum]
  | succ m ih =>
    rw [List.range_succ, List.foldl_append, List.foldl_cons, List.foldl_nil, ih (by omega)]
    obtain ⟨_, _, _, a4, a5, a6⟩ := hex.1 m (by omega)
    unfold deviation_shot
    rw [hrec m (by omega), a4.1, a5.1, a6.1]
    unfold deviation_sum
    rw [Finset.sum_range_succ]
    ring

/-- The first shot of the sample sequence `single_tag` with bin width 80 ps sets
`acc` to 240, and every later shot leaves it there. -/
theorem single_tag_acc (rec0 : Nat → ℚ) (m : Nat) :
    ((List.range (m + 1)).foldl (measure_shot round_double 80 single_tag) (0, rec0)).1
      = 240 := by
  have r0 : round_double 0 = 0 := round_double_zero
  have r80 : round_double 80 = 80 := by simpa using round_double_int 80 (by decide)
  have r240 : round_double 240 = 240 := by simpa using round_double_int 240 (by decide)
  have hfst : ∀ (st : ℚ × (Nat → ℚ)) (i : Nat),
      (measure_shot round_double 80 single_tag st i).1
        = round_double (st.1 + round_double (round_double
            ((((single_tag i >>> 0) &&& 0x1ffff : Nat) : ℚ) * 80) * 3)) := fun _ _ => rfl
  induction m with
  | zero =>
    have t0 : ((single_tag 0 >>> 0) &&& 0x1ffff : Nat) = 1 := by decide
    rw [List.range_succ, List.foldl_append, List.foldl_cons, List.foldl_nil, hfst, t0]
    norm_num [r80, r240]
  | succ m ih =>
    have t1 : ((single_tag (m + 1) >>> 0) &&& 0x1ffff : Nat) = 0 := by
      simp [single_tag]
    rw [List.range_succ, List.foldl_append, List.foldl_cons, List.foldl_nil, hfst, ih, t1]
    norm_num [r0, r240]

/-- The quotient `240 / 7` is not a binary64 number: it rounds to
`4825285315039817 / 2^47`. -/
theorem round_double_240_7 :
    round_double (240 / 7) = 4825285315039817 / 140737488355328 := by
  rw [round_double_eq (240 / 7) 5 4825285315039817 (by norm_num [abs_of_pos])
    (by norm_num [abs_of_pos]) (by norm_num [abs_lt])]
  norm_num

/-- The loop condition `abs (l - r) > 1` for tap indices `0 ≤ l < r ≤ 2^30`. -/
theorem loop_cond_iff (l r : Int) (h0 : 0 ≤ l) (h1 : l < r) (h2 : r ≤ 1073741824) :
    |int32 (l - r)| > 1 ↔ 1 < r - l := by
  rw [int32_of_range _ (by omega) (by omega), abs_sub_comm, abs_of_pos (by omega)]

/-- The midpoint `(l + r) / 2` for tap indices `0 ≤ l < r ≤ 2^30`. -/
theorem mid_eq (l r : Int) (h0 : 0 ≤ l) (h1 : l < r) (h2 : r ≤ 1073741824) :
    Int.tdiv (int32 (l + r)) 2 = (l + r) / 2 := by
  rw [int32_of_range _ (by omega) (by omega)]
  exact Int.tdiv_eq_ediv (by omega) (by decide)

/-- The binary search keeps a tap `l` whose rounded delay difference is below
8000 and a tap `r` whose rounded delay difference is at least 8000, and ends
with two adjacent taps; `r - l` evaluations of the loop condition suffice. -/
theorem find_8ns_loop_crossing {σ : Type} (fl : ℚ → ℚ) (measure : σ → Int → ℚ × σ)
    (d : Int → ℚ) (bias : ℚ) (hdet : ∀ s f, (measure s f).1 = d f) :
    ∀ (fuel : Nat) (l r : Int) (s : σ), 0 ≤ l → l < r → r ≤ 1073741824 →
      (r - l).toNat ≤ fuel → fl (d l - bias) < 8000 → 8000 ≤ fl (d r - bias) →
      ∃ l' s', find_8ns_loop fl measure bias fuel l r s = some (l', s') ∧
        l ≤ l' ∧ l' + 1 ≤ r ∧ fl (d l' - bias) < 8000 ∧ 8000 ≤ fl (d (l' + 1) - bias) := by
  intro fuel
  induction fuel with
  | zero =>
    intro l r s h0 h1 h2 hf
    omega
  | succ fuel ih =>
    intro l r s h0 h1 h2 hf hl hr
    unfold find_8ns_loop
    by_cases hc : 1 < r - l
    · rw [if_pos ((loop_cond_iff l r h0 h1 h2).mpr hc), mid_eq l r h0 h1 h2]
      simp only [hdet]
      by_cases hd : fl (d ((l + r) / 2) - bias) < 8000
      · rw [if_pos hd]
        obtain ⟨l', s', e, a1, a2, a3, a4⟩ :=
          ih ((l + r) / 2) r (measure s ((l + r) / 2)).2 (by omega) (by omega) h2
            (by omega) hd hr
        exact ⟨l', s', e, by omega, a2, a3, a4⟩
      · rw [if_neg hd]
        obtain ⟨l', s', e, a1, a2, a3, a4⟩ :=
          ih l ((l + r) / 2) (measure s ((l + r) / 2)).2 h0 (by omega) (by omega)
            (by omega) hl (not_lt.mp hd)
        exact ⟨l', s', e, a1, by omega, a3, a4⟩
    · rw [if_neg (fun h => hc ((loop_cond_iff l r h0 h1 h2).mp h))]
      have hr1 : r = l + 1 := by omega
      subst hr1
      exact ⟨l, s, rfl, le_refl _, le_refl _, hl, hr⟩

/-- C7 (as amended): for `2 ≤ N_TAPS ≤ 2^30`, every deterministic, monotonically
non-decreasing delay function `d` over the taps `0 .. N_TAPS - 1` with
`d (N_TAPS - 1) - d 0 ≥ 8000`, and `k` the smallest tap whose delay difference
`d k - d 0`, rounded to binary64 as the program computes it, is at least 8000,
`find_8ns_tap` returns (given `N_TAPS` evaluations of the loop condition) an
index `r` with `|r - k| ≤ 1`; in fact `r = k - 1`. This `k` is at or below every
tap whose exact difference `d j - d 0` is at least 8000. -/
theorem find_8ns_tap_crossing {σ : Type} (N_TAPS : Int) (measure : σ → Int → ℚ × σ)
    (d : Int → ℚ) (k : Int) (fuel : Nat) (s : σ)
    (hN : 2 ≤ N_TAPS) (hN30 : N_TAPS ≤ 1073741824)
    (hdet : ∀ s f, (measure s f).1 = d f)
    (hmono : ∀ i j, 0 ≤ i → i ≤ j → j ≤ N_TAPS - 1 → d i ≤ d j)
    (hspan : 8000 ≤ d (N_TAPS - 1) - d 0)
    (hk : 0 ≤ k ∧ k ≤ N_TAPS - 1) (hk1 : 8000 ≤ round_double (d k - d 0))
    (hk2 : ∀ j, 0 ≤ j → j < k → round_double (d j - d 0) < 8000)
    (hfuel : N_TAPS.toNat ≤ fuel) :
    (∃ r s', find_8ns_tap round_double N_TAPS measure fuel s = some (r, s') ∧
      r = k - 1 ∧ |r - k| ≤ 1) ∧
    ∀ j, 0 ≤ j → j ≤ N_TAPS - 1 → 8000 ≤ d j - d 0 → k ≤ j := by
  have r8000 : round_double 8000 = 8000 := by
    simpa using round_double_int 8000 (by decide)
  have hround : ∀ x : ℚ, 8000 ≤ x → 8000 ≤ round_double x := by
    intro x hx
    have := round_double_mono hx
    rw [r8000] at this
    exact this
  constructor
  · unfold find_8ns_tap
    simp only [hdet]
    rw [int32_of_range _ (by omega) (by omega)]
    obtain ⟨l', s', e, a1, a2, a3, a4⟩ :=
      find_8ns_loop_crossing round_double measure d (d 0) hdet fuel 0 (N_TAPS - 1)
        (measure s 0).2 (le_refl _) (by omega) (by omega) (by omega)
        (by rw [sub_self, round_double_zero]; norm_num) (hround _ hspan)
    have hle : k ≤ l' + 1 := by
      by_contra hcon
      have := hk2 (l' + 1) (by omega) (by omega)
      linarith
    have hgt : l' < k := by
      by_contra hcon
      have h1 := hmono k l' hk.1 (by omega) (by omega)
      have h2 : round_double (d k - d 0) ≤ round_double (d l' - d 0) :=
        round_double_mono (by linarith)
      linarith
    have hr : l' = k - 1 := by omega
    refine ⟨l', s', e, hr, ?_⟩
    rw [hr, abs_le]
    constructor <;> omega
  · intro j hj0 hj1 hj
    by_contra hcon
    have := hk2 j hj0 (by omega)
    have := hround _ hj
    linarith

/-- C7, witness: 1024 taps with `d f = 10 * f` ps cross 8000 ps at tap 800, and
`find_8ns_tap` returns 799. -/
theorem find_8ns_tap_crossing_witness :
    find_8ns_tap round_double 1024 (fun (s : Unit) f => ((f : ℚ) * 10, s)) 1024 ()
      = some (799, ()) := by
  obtain ⟨⟨r, s', e, hr, _⟩, _⟩ :=
    find_8ns_tap_crossing 1024 (fun (s : Unit) f => ((f : ℚ) * 10, s))
      (fun f => (f : ℚ) * 10) 800 1024 () (by decide) (by decide) (fun _ _ => rfl)
      (fun i j _ hij _ => by
        have : (i : ℚ) ≤ (j : ℚ) := by exact_mod_cast hij
        show (i : ℚ) * 10 ≤ (j : ℚ) * 10
        linarith)
      (by norm_num) (by decide)
      (by
        have h := round_double_int 8000 (by decide)
        have e : ((800 : Int) : ℚ) * 10 - ((0 : Int) : ℚ) * 10 = ((8000 : Int) : ℚ) := by
          norm_num
        show 8000 ≤ round_double (((800 : Int) : ℚ) * 10 - ((0 : Int) : ℚ) * 10)
        rw [e, h]
        norm_num)
      (fun j hj0 hj => by
        have h := round_double_int (j * 10) (by omega)
        have e : (j : ℚ) * 10 - ((0 : Int) : ℚ) * 10 = ((j * 10 : Int) : ℚ) := by
          push_cast
          ring
        show round_double ((j : ℚ) * 10 - ((0 : Int) : ℚ) * 10) < 8000
        rw [e, h]
        have : (j : ℚ) < 800 := by exact_mod_cast hj
        push_cast
        linarith)
      (by decide)
  rw [e, hr]
  rfl

/-- Just below 8000 the binary64 numbers are `2^-40` apart: `8000 - 2^-60` rounds
to 8000. -/
theorem round_double_below_8000 :
    round_double (8000 - 1 / 1152921504606846976) = 8000 := by
  rw [round_double_eq (8000 - 1 / 1152921504606846976) 12 8796093022208000
    (by norm_num [abs_of_pos]) (by norm_num [abs_of_pos]) (by norm_num [abs_lt])]
  norm_num

/-- The delays of the sample line `plateau_delay` are finite binary64 numbers. -/
theorem plateau_delay_is_double (f : Int) : is_double (plateau_delay f) := by
  unfold plateau_delay
  split_ifs
  · refine ⟨?_, by norm_num [abs_of_pos]⟩
    rw [round_double_eq (1 / 1152921504606846976) (-60) 4503599627370496
      (by norm_num [abs_of_pos]) (by norm_num [abs_of_pos]) (by norm_num [abs_lt])]
    norm_num
  · simpa using is_double_int 8000 (by decide)
  · simpa using is_double_int 8001 (by decide)

/-- C7, counterexample: on the four taps with delays `2^-60`, 8000, 8000 and 8001
ps (binary64 numbers, non-decreasing, `d 3 - d 0 ≥ 8000`) the smallest tap with
`d k - d 0 ≥ 8000` is `k = 3`, since `d 2 - d 0 = 8000 - 2^-60`; the program
rounds `d 1 - d 0` to 8000 and returns 0, which is 3 taps away from `k`. -/
theorem find_8ns_tap_misses_exact_crossing :
    (∀ j : Int, is_double (plateau_delay j)) ∧
    (∀ i j : Int, 0 ≤ i → i ≤ j → j ≤ 4 - 1 → plateau_delay i ≤ plateau_delay j) ∧
    8000 ≤ plateau_delay (4 - 1) - plateau_delay 0 ∧
    8000 ≤ plateau_delay 3 - plateau_delay 0 ∧
    (∀ j : Int, 0 ≤ j → j < 3 → plateau_delay j - plateau_delay 0 < 8000) ∧
    find_8ns_tap round_double 4 (fun (s : Unit) f => (plateau_delay f, s)) 4 ()
      = some (0, ()) ∧
    ¬ |(0 : Int) - 3| ≤ 1 := by
  have hmono : ∀ i j : Int, 0 ≤ i → i ≤ j → j ≤ 4 - 1 → plateau_delay i ≤ plateau_delay j := by
    intro i j hi hij hj
    have hi' : i = 0 ∨ i = 1 ∨ i = 2 ∨ i = 3 := by omega
    have hj' : j = 0 ∨ j = 1 ∨ j = 2 ∨ j = 3 := by omega
    rcases hi' with rfl | rfl | rfl | rfl <;> rcases hj' with rfl | rfl | rfl | rfl <;>
      first
        | omega
        | (unfold plateau_delay; norm_num)
  have hbelow : ∀ j : Int, 0 ≤ j → j < 3 → plateau_delay j - plateau_delay 0 < 8000 := by
    intro j hj0 hj
    have hj' : j = 0 ∨ j = 1 ∨ j = 2 := by omega
    rcases hj' with rfl | rfl | rfl <;> (unfold plateau_delay; norm_num)
  have h1 : round_double (plateau_delay 1 - plateau_delay 0) = 8000 := by
    have e : plateau_delay 1 - plateau_delay 0 = 8000 - 1 / 1152921504606846976 := by
      unfold plateau_delay
      norm_num
    rw [e, round_double_below_8000]
  have hrun : find_8ns_tap round_double 4 (fun (s : Unit) f => (plateau_delay f, s)) 4 ()
      = some (0, ()) := by
    have c1 : |int32 (0 - 3)| > 1 := by decide
    have c2 : ¬ |int32 (0 - 1)| > 1 := by decide
    have m1 : Int.tdiv (int32 (0 + 3)) 2 = 1 := by decide
    have i3 : int32 (4 - 1) = 3 := by decide
    unfold find_8ns_tap
    simp only [i3]
    unfold find_8ns_loop
    simp only [if_pos c1, m1, h1, lt_irrefl, if_false]
    unfold find_8ns_loop
    simp only [if_neg c2]
  refine ⟨plateau_delay_is_double, hmono, ?_, ?_, hbelow, hrun, by decide⟩
  · unfold plateau_delay
    norm_num
  · unfold plateau_delay
    norm_num

/-! ## ACAM PLL divider search: theorems -/

/-- The invariant of the divider search depends only on the set of tried pairs. -/
theorem pll_inv_congr (bin clock_freq : ℚ) (S S' : Nat → Nat → Prop) (st : pll_search)
    (hS : ∀ h r, S' h r ↔ S h r) (hinv : pll_inv bin clock_freq S st) :
    pll_inv bin clock_freq S' st := by
  have e : S' = S := by
    funext h r
    exact propext (hS h r)
  rw [e]; exact hinv

/-- Trying one more pair, later in the enumeration than all pairs tried so far,
keeps the invariant of the divider search. -/
theorem pll_body_inv (bin clock_freq : ℚ) (S : Nat → Nat → Prop) (st : pll_search)
    (h r : Nat) (hinv : pll_inv bin clock_freq S st)
    (hnew : ∀ h' r', S h' r' → pll_before h' r' h r) :
    pll_inv bin clock_freq (fun h' r' => S h' r' ∨ (h' = h ∧ r' = r))
      (pll_body bin clock_freq st h r) := by
  unfold pll_body
  simp only
  rcases hinv with ⟨hsel, hbest, hall⟩ | ⟨h0, r0, hS, hsel, hbest, hlt, hall⟩
  · by_cases hc : |bin - pll_bin clock_freq h r| < st.best_err
    · rw [if_pos hc]
      right
      refine ⟨h, r, Or.inr ⟨rfl, rfl⟩, rfl, rfl, by rw [hbest] at hc; exact hc, ?_⟩
      rintro h' r' (hS' | ⟨rfl, rfl⟩)
      · have := hall h' r' hS'
        rw [hbest] at hc
        have hlt' : pll_err bin clock_freq h r < pll_err bin clock_freq h' r' :=
          lt_of_lt_of_le hc this
        exact ⟨le_of_lt hlt', fun _ => hlt'⟩
      · refine ⟨le_refl _, fun hb => ?_⟩
        unfold pll_before at hb
        omega
    · rw [if_neg hc]
      left
      refine ⟨hsel, hbest, ?_⟩
      rintro h' r' (hS' | ⟨rfl, rfl⟩)
      · exact hall h' r' hS'
      · rw [hbest] at hc
        exact not_lt.mp hc
  · by_cases hc : |bin - pll_bin clock_freq h r| < st.best_err
    · rw [if_pos hc]
      right
      rw [hbest] at hc
      refine ⟨h, r, Or.inr ⟨rfl, rfl⟩, rfl, rfl, lt_trans hc hlt, ?_⟩
      rintro h' r' (hS' | ⟨rfl, rfl⟩)
      · have := (hall h' r' hS').1
        have hlt' : pll_err bin clock_freq h r < pll_err bin clock_freq h' r' :=
          lt_of_lt_of_le hc this
        exact ⟨le_of_lt hlt', fun _ => hlt'⟩
      · refine ⟨le_refl _, fun hb => ?_⟩
        unfold pll_before at hb
        omega
    · rw [if_neg hc]
      right
      rw [hbest] at hc
      refine ⟨h0, r0, Or.inl hS, hsel, hbest, hlt, ?_⟩
      rintro h' r' (hS' | ⟨rfl, rfl⟩)
      · exact hall h' r' hS'
      · refine ⟨not_lt.mp hc, fun hb => ?_⟩
        have := hnew h0 r0 hS
        unfold pll_before at hb this
        omega

/-- The inner loop over `r = 0 .. n-1` for a fixed `h` keeps the invariant. -/
theorem pll_inner_inv (bin clock_freq : ℚ) (h : Nat) (S0 : Nat → Nat → Prop)
    (hS0 : ∀ h' r', S0 h' r' → h' < h) :
    ∀ (n : Nat) (st : pll_search), pll_inv bin clock_freq S0 st →
      pll_inv bin clock_freq (fun h' r' => S0 h' r' ∨ (h' = h ∧ r' < n))
        ((List.range n).foldl (fun st r => pll_body bin clock_freq st h r) st) := by
  intro n
  induction n with
  | zero =>
    intro st hinv
    refine pll_inv_congr _ _ _ _ _ (fun h' r' => ?_) hinv
    constructor
    · rintro (hs | ⟨_, hr⟩)
      · exact hs
      · omega
    · exact Or.inl
  | succ n ih =>
    intro st hinv
    rw [List.range_succ, List.foldl_append, List.foldl_cons, List.foldl_nil]
    have hstep := pll_body_inv bin clock_freq _ _ h n (ih st hinv) (by
      rintro h' r' (hs | ⟨rfl, hr⟩)
      · exact Or.inl (hS0 h' r' hs)
      · exact Or.inr ⟨rfl, hr⟩)
    refine pll_inv_congr _ _ _ _ _ (fun h' r' => ?_) hstep
    constructor
    · rintro (hs | ⟨rfl, hr⟩)
      · exact Or.inl (Or.inl hs)
      · by_cases hrn : r' = n
        · exact Or.inr ⟨rfl, hrn⟩
        · exact Or.inl (Or.inr ⟨rfl, by omega⟩)
    · rintro ((hs | ⟨rfl, hr⟩) | ⟨rfl, rfl⟩)
      · exact Or.inl hs
      · exact Or.inr ⟨rfl, by omega⟩
      · exact Or.inr ⟨rfl, by omega⟩

/-- The outer loop over `h = 1 .. m` keeps the invariant. -/
theorem pll_outer_inv (bin clock_freq : ℚ) :
    ∀ m : Nat, pll_inv bin clock_freq (fun h' r' => 1 ≤ h' ∧ h' < 1 + m ∧ r' < 8)
      ((List.range' 1 m).foldl
        (fun st h => (List.range 8).foldl (fun st r => pll_body bin clock_freq st h r) st)
        { best_err := 100000, sel := none }) := by
  intro m
  induction m with
  | zero =>
    left
    refine ⟨rfl, rfl, ?_⟩
    rintro h r ⟨h1, h2, _⟩
    omega
  | succ m ih =>
    rw [List.range'_1_concat, List.foldl_append, List.foldl_cons, List.foldl_nil]
    have hin := pll_inner_inv bin clock_freq (1 + m) _ (fun h' r' hs => hs.2.1) 8 _ ih
    refine pll_inv_congr _ _ _ _ _ (fun h' r' => ?_) hin
    constructor
    · rintro ⟨h1, h2, h3⟩
      by_cases hh : h' = 1 + m
      · exact Or.inr ⟨hh, h3⟩
      · exact Or.inl ⟨h1, by omega, h3⟩
    · rintro (⟨h1, h2, h3⟩ | ⟨rfl, h3⟩)
      · exact ⟨h1, by omega, h3⟩
      · exact ⟨by omega, by omega, h3⟩

/-- C8 (as amended): over exact rational arithmetic, for every positive target bin
width and positive reference frequency for which some pair in `[1,255] x [0,7]`
has an error `|target - b (h, r)|` below 100000, `acam_calc_pll` stores the pair
that minimizes the error, the first such pair in enumeration order (`h`
ascending in the outer loop, `r` ascending in the inner loop), and returns that
pair's bin width, which is positive. -/
theorem acam_calc_pll_argmin (bin clock_freq : ℚ) (hpos : 0 < bin ∧ 0 < clock_freq)
    (hreach : ∃ h r : Nat, 1 ≤ h ∧ h ≤ 255 ∧ r ≤ 7 ∧ pll_err bin clock_freq h r < 100000) :
    ∃ h r : Nat, 1 ≤ h ∧ h ≤ 255 ∧ r ≤ 7 ∧
      (acam_calc_pll bin clock_freq).sel = some ((h : Int), (r : Int), pll_bin clock_freq h r) ∧
      0 < pll_bin clock_freq h r ∧
      ∀ h' r' : Nat, 1 ≤ h' → h' ≤ 255 → r' ≤ 7 →
        pll_err bin clock_freq h r ≤ pll_err bin clock_freq h' r' ∧
        (pll_before h' r' h r → pll_err bin clock_freq h r < pll_err bin clock_freq h' r') := by
  have hinv := pll_outer_inv bin clock_freq 255
  rcases hinv with ⟨_, _, hall⟩ | ⟨h, r, ⟨h1, h2, h3⟩, hsel, _, _, hall⟩
  · exfalso
    obtain ⟨h, r, h1, h2, h3, hlt⟩ := hreach
    have := hall h r ⟨h1, by omega, by omega⟩
    exact absurd hlt (not_lt.mpr this)
  · refine ⟨h, r, h1, by omega, by omega, hsel, ?_, ?_⟩
    · unfold pll_bin
      have hh : (0 : ℚ) < (h : ℚ) := by exact_mod_cast h1
      have := hpos.2
      positivity
    · intro h' r' a b c
      exact hall h' r' ⟨a, by omega, by omega⟩

/-- The error of the pair `(h, r)` for the target 80.9553 ps at 31.25 MHz, as a
quotient of integers. -/
theorem pll_err_ref (h r : Nat) (hh : 1 ≤ h) :
    pll_err (809553 / 10000) 31250000 h r
      = ((Int.natAbs (174863448 * (h : Int) - 320000000 * 2 ^ r) : Nat) : ℚ)
          / (2160000 * (h : ℚ)) := by
  have hpos : (0 : ℚ) < (h : ℚ) := by exact_mod_cast hh
  have hne : (h : ℚ) ≠ 0 := ne_of_gt hpos
  have e : (809553 / 10000 : ℚ) - pll_bin 31250000 h r
      = (((174863448 * (h : Int) - 320000000 * 2 ^ r : Int)) : ℚ) / (2160000 * (h : ℚ)) := by
    unfold pll_bin
    push_cast
    field_simp
    ring
  unfold pll_err
  rw [e, abs_div, abs_of_pos (by positivity : (0 : ℚ) < 2160000 * (h : ℚ))]
  congr 1
  rw [Nat.cast_natAbs, Int.cast_abs]

set_option maxRecDepth 100000 in
/-- Every divider pair is at least as far from 80.9553 ps as `(117, 6)`, and the
pairs tried before `(117, 6)` are strictly farther (integer form). -/
theorem pll_ref_table :
    ∀ h : Fin 256, ∀ r : Fin 8, 1 ≤ h.val →
      (2622073 * (2160000 * h.val)
        ≤ 31590000 * Int.natAbs (174863448 * (h.val : Int) - 320000000 * 2 ^ r.val)) ∧
      ((h.val < 117 ∨ (h.val = 117 ∧ r.val < 6)) →
        2622073 * (2160000 * h.val)
          < 31590000 * Int.natAbs (174863448 * (h.val : Int) - 320000000 * 2 ^ r.val)) := by
  decide

/-- Rational form of the table: every pair in range is at least as far from
80.9553 ps as `(117, 6)`, strictly so when it is tried before `(117, 6)`. -/
theorem pll_ref_least (h r : Nat) (h1 : 1 ≤ h) (h2 : h ≤ 255) (h3 : r ≤ 7) :
    (2622073 / 31590000 : ℚ) ≤ pll_err (809553 / 10000) 31250000 h r ∧
    (pll_before h r 117 6 →
      (2622073 / 31590000 : ℚ) < pll_err (809553 / 10000) 31250000 h r) := by
  have ht := pll_ref_table ⟨h, by omega⟩ ⟨r, by omega⟩ h1
  simp only at ht
  have hpos : (0 : ℚ) < 2160000 * (h : ℚ) := by
    have : (0 : ℚ) < (h : ℚ) := by exact_mod_cast h1
    positivity
  rw [pll_err_ref h r h1]
  constructor
  · rw [div_le_div_iff₀ (by norm_num) hpos]
    have := ht.1
    have hq : ((2622073 * (2160000 * h) : Nat) : ℚ)
        ≤ ((31590000 * Int.natAbs (174863448 * (h : Int) - 320000000 * 2 ^ r) : Nat) : ℚ) := by
      exact_mod_cast this
    push_cast at hq
    linarith
  · intro hb
    rw [div_lt_div_iff₀ (by norm_num) hpos]
    have := ht.2 hb
    have hq : ((2622073 * (2160000 * h) : Nat) : ℚ)
        < ((31590000 * Int.natAbs (174863448 * (h : Int) - 320000000 * 2 ^ r) : Nat) : ℚ) := by
      exact_mod_cast this
    push_cast at hq
    linarith

/-- C8, witness: for the target 80.9553 ps at 31.25 MHz the pairs `(117, 6)` and
`(234, 7)` have the same, least error, and `(117, 6)` is selected with the bin
width `256000 / 3159` ps. -/
theorem acam_calc_pll_argmin_witness :
    (acam_calc_pll 80.9553 31250000).sel = some (117, 6, 256000 / 3159) ∧
    pll_err 80.9553 31250000 117 6 = pll_err 80.9553 31250000 234 7 := by
  have hb : (80.9553 : ℚ) = 809553 / 10000 := by norm_num
  rw [hb]
  have e0 : pll_err (809553 / 10000) 31250000 117 6 = 2622073 / 31590000 := by
    rw [pll_err_ref 117 6 (by decide)]
    have : Int.natAbs (174863448 * ((117 : Nat) : Int) - 320000000 * 2 ^ 6) = 20976584 := by
      decide
    rw [this]; norm_num
  have e1 : pll_err (809553 / 10000) 31250000 234 7 = 2622073 / 31590000 := by
    rw [pll_err_ref 234 7 (by decide)]
    have : Int.natAbs (174863448 * ((234 : Nat) : Int) - 320000000 * 2 ^ 7) = 41953168 := by
      decide
    rw [this]; norm_num
  obtain ⟨h, r, h1, h2, h3, hsel, _, hall⟩ :=
    acam_calc_pll_argmin (809553 / 10000) 31250000 (by norm_num)
      ⟨117, 6, by decide, by decide, by decide, by rw [e0]; norm_num⟩
  have hleast := pll_ref_least h r h1 h2 h3
  have hsel117 := hall 117 6 (by decide) (by decide) (by decide)
  rw [e0] at hsel117
  have hh : h = 117 ∧ r = 6 := by
    by_contra hne
    have hcase : pll_before h r 117 6 ∨ pll_before 117 6 h r := by
      unfold pll_before
      omega
    rcases hcase with hc | hc
    · exact absurd (hleast.2 hc) (not_lt.mpr hsel117.1)
    · exact absurd (hsel117.2 hc) (not_lt.mpr hleast.1)
  obtain ⟨rfl, rfl⟩ := hh
  refine ⟨?_, by rw [e0, e1]⟩
  rw [hsel]
  have : pll_bin 31250000 117 6 = 256000 / 3159 := by
    unfold pll_bin; norm_num
  rw [this]
  rfl


/-- At 31.25 MHz no divider pair yields a bin above 20000 ps. -/
theorem pll_bin_le (h r : Nat) (h1 : 1 ≤ h) (h3 : r ≤ 7) :
    pll_bin 31250000 h r ≤ 20000 := by
  have hh : (1 : ℚ) ≤ (h : ℚ) := by exact_mod_cast h1
  have hr : (2 : ℚ) ^ r ≤ 2 ^ 7 := pow_le_pow_right₀ (by norm_num) h3
  unfold pll_bin
  rw [div_le_iff₀ (by positivity)]
  norm_num at hr ⊢
  linarith

/-- C8, counterexample: for the target bin 1000000 ps at 31.25 MHz every pair
has an error of at least 100000, the initial `best_err`; the `if` never fires
and `acam_calc_pll` selects no pair at all. -/
theorem acam_calc_pll_selects_nothing :
    (0 : ℚ) < 1000000 ∧ (0 : ℚ) < 31250000 ∧
    (acam_calc_pll 1000000 31250000).sel = none ∧
    (acam_calc_pll 1000000 31250000).best_err = 100000 := by
  refine ⟨by norm_num, by norm_num, ?_⟩
  rcases pll_outer_inv 1000000 31250000 255 with
    ⟨hs, hb, _⟩ | ⟨h, r, ⟨h1, _, h3⟩, _, _, hlt, _⟩
  · exact ⟨hs, hb⟩
  · exfalso
    have hb := pll_bin_le h r h1 (by omega)
    have habs : 1000000 - pll_bin 31250000 h r ≤ |1000000 - pll_bin 31250000 h r| :=
      le_abs_self _
    unfold pll_err at hlt
    linarith

/-! ## Picosecond conversion: quantization -/

/-- The timestamp that `fdelay_from_picos` computes for an argument in the range
of `uint64_t` is normalized. -/
theorem from_picos_normalized (t0 : fdelay_time_t) (ps : Int)
    (h0 : 0 ≤ ps) (h1 : ps < 18446744073709551616) :
    normalized (fdelay_from_picos t0 ps) := by
  rw [from_picos_unwrapped t0 ps h0 h1]
  simp only [normalized]
  omega

/-- C16: quantization bound of the picosecond conversion: for every `ps` with
`0 ≤ ps < 2^63`, `fdelay_to_picos (fdelay_from_picos ps)` never exceeds `ps` and
falls short of it by at most 2 ps. -/
theorem to_from_picos_bound (t0 : fdelay_time_t) (ps : Int)
    (h0 : 0 ≤ ps) (h1 : ps < 9223372036854775808) :
    0 ≤ ps - fdelay_to_picos (fdelay_from_picos t0 ps) ∧
    ps - fdelay_to_picos (fdelay_from_picos t0 ps) ≤ 2 := by
  have hn := from_picos_normalized t0 ps h0 (by omega)
  have hu := from_picos_unwrapped t0 ps h0 (by omega)
  have e1 : (fdelay_from_picos t0 ps).frac = ps % 8000 * 4096 / 8000 := by rw [hu]
  have e2 : (fdelay_from_picos t0 ps).coarse = ps / 8000 % 125000000 := by rw [hu]
  have e3 : (fdelay_from_picos t0 ps).utc = ps / 1000000000000 := by rw [hu]
  have hq0 : 0 ≤ ps % 8000 * 4096 / 8000 := by omega
  have hq1 : ps % 8000 * 4096 / 8000 < 4096 := by omega
  have hx : exact_picos (fdelay_from_picos t0 ps)
      = ps % 8000 * 4096 / 8000 * 8000 / 4096 + ps / 8000 % 125000000 * 8000
        + ps / 1000000000000 * 1000000000000 := by
    unfold exact_picos
    rw [e1, e2, e3]
  have hsplit : ps = ps % 8000 + ps / 8000 % 125000000 * 8000
      + ps / 1000000000000 * 1000000000000 := by omega
  have hback0 : ps % 8000 * 4096 / 8000 * 8000 / 4096 ≤ ps % 8000 := by omega
  have hback1 : ps % 8000 ≤ ps % 8000 * 4096 / 8000 * 8000 / 4096 + 2 := by omega
  have hfit : exact_picos (fdelay_from_picos t0 ps) < 9223372036854775808 := by
    rw [hx]; omega
  rw [to_picos_of_fits _ hn (by rw [e3]; omega) hfit, hx]
  constructor <;> omega

/-- C16, witness: the bound 2 is attained at `ps = 3`, which converts to
`frac = 1` and back to 1 ps. -/
theorem to_from_picos_bound_witness :
    fdelay_to_picos (fdelay_from_picos ⟨0, 0, 0, 0, 0⟩ 3) = 1 ∧
    (0 ≤ 3 - fdelay_to_picos (fdelay_from_picos ⟨0, 0, 0, 0, 0⟩ 3) ∧
      3 - fdelay_to_picos (fdelay_from_picos ⟨0, 0, 0, 0, 0⟩ 3) ≤ 2) ∧
    3 - fdelay_to_picos (fdelay_from_picos ⟨0, 0, 0, 0, 0⟩ 3) = 2 :=
  ⟨by decide, to_from_picos_bound ⟨0, 0, 0, 0, 0⟩ 3 (by decide) (by decide), by decide⟩

/-! ## Binary search: termination -/

/-- Halving an interval of width at least 2 lowers the ceiling of its binary
logarithm by one, whichever half is kept. -/
theorem clog_half (w v : Nat) (hw : 2 ≤ w) (hv : v ≤ (w + 1) / 2) :
    Nat.clog 2 v + 1 ≤ Nat.clog 2 w := by
  rw [Nat.clog_of_two_le (by decide) hw]
  have : Nat.clog 2 v ≤ Nat.clog 2 ((w + 2 - 1) / 2) :=
    Nat.clog_mono_right 2 (by omega)
  omega

/-- Dropping the call counter from an instrumented run of the loop gives the run
of the loop on the plain measurement function. -/
theorem find_8ns_loop_counted {σ : Type} (fl : ℚ → ℚ) (measure : σ → Int → ℚ × σ)
    (bias : ℚ) :
    ∀ (fuel : Nat) (l r : Int) (s : σ) (c : Nat),
      (find_8ns_loop fl (counted measure) bias fuel l r (s, c)).map (fun x => (x.1, x.2.1))
        = find_8ns_loop fl measure bias fuel l r s := by
  intro fuel
  induction fuel with
  | zero => intro l r s c; rfl
  | succ fuel ih =>
    intro l r s c
    unfold find_8ns_loop
    by_cases hc : |int32 (l - r)| > 1
    · simp only [if_pos hc]
      by_cases hd : fl ((counted measure (s, c) (Int.tdiv (int32 (l + r)) 2)).1 - bias) < 8000
      · have hd' : fl ((measure s (Int.tdiv (int32 (l + r)) 2)).1 - bias) < 8000 := hd
        rw [if_pos hd, if_pos hd']
        exact ih _ _ _ _
      · have hd' : ¬ fl ((measure s (Int.tdiv (int32 (l + r)) 2)).1 - bias) < 8000 := hd
        rw [if_neg hd, if_neg hd']
        exact ih _ _ _ _
    · simp only [if_neg hc]
      rfl

/-- The loop of `find_8ns_tap` ends for every measurement function: from taps
`0 ≤ l < r ≤ 2^30` it makes at most `clog 2 (r - l)` measurements and needs one
more evaluation of the loop condition; the tap it returns lies in `[l, r - 1]`. -/
theorem find_8ns_loop_terminates {σ : Type} (fl : ℚ → ℚ) (measure : σ → Int → ℚ × σ)
    (bias : ℚ) :
    ∀ (fuel : Nat) (l r : Int) (s : σ) (c : Nat), 0 ≤ l → l < r → r ≤ 1073741824 →
      Nat.clog 2 (r - l).toNat + 1 ≤ fuel →
      ∃ low s' c',
        find_8ns_loop fl (counted measure) bias fuel l r (s, c) = some (low, (s', c')) ∧
        c' ≤ c + Nat.clog 2 (r - l).toNat ∧ l ≤ low ∧ low < r := by
  intro fuel
  induction fuel with
  | zero =>
    intro l r s c h0 h1 h2 hf
    omega
  | succ fuel ih =>
    intro l r s c h0 h1 h2 hf
    unfold find_8ns_loop
    by_cases hc : 1 < r - l
    · rw [if_pos ((loop_cond_iff l r h0 h1 h2).mpr hc), mid_eq l r h0 h1 h2]
      have hw : 2 ≤ (r - l).toNat := by omega
      have hlo : Nat.clog 2 (r - (l + r) / 2).toNat + 1 ≤ Nat.clog 2 (r - l).toNat :=
        clog_half _ _ hw (by omega)
      have hhi : Nat.clog 2 ((l + r) / 2 - l).toNat + 1 ≤ Nat.clog 2 (r - l).toNat :=
        clog_half _ _ hw (by omega)
      simp only
      by_cases hd : fl ((counted measure (s, c) ((l + r) / 2)).1 - bias) < 8000
      · rw [if_pos hd]
        obtain ⟨low, s', c', e, a1, a2, a3⟩ :=
          ih ((l + r) / 2) r (measure s ((l + r) / 2)).2 (c + 1) (by omega) (by omega) h2
            (by omega)
        exact ⟨low, s', c', e, by omega, by omega, a3⟩
      · rw [if_neg hd]
        obtain ⟨low, s', c', e, a1, a2, a3⟩ :=
          ih l ((l + r) / 2) (measure s ((l + r) / 2)).2 (c + 1) h0 (by omega) (by omega)
            (by omega)
        exact ⟨low, s', c', e, by omega, a2, by omega⟩
    · rw [if_neg (fun h => hc ((loop_cond_iff l r h0 h1 h2).mp h))]
      exact ⟨l, s, c, rfl, by omega, le_refl _, h1⟩

/-- C15: for `2 ≤ N_TAPS ≤ 2^30`, every rounding `fl` of the `double` subtraction
and every measurement function, whatever it returns and however the device
state evolves between calls, each iteration of
the binary search picks `mid` with `low < mid < high`, and `find_8ns_tap`
terminates (with `1 + clog 2 (N_TAPS - 1)` evaluations of the loop condition):
it makes at most `1 + ceil (log2 (N_TAPS - 1))` calls of `measure_output_delay`
and returns `low` with `0 ≤ low ≤ N_TAPS - 2`. The instrumented and the plain
run return the same tap and device state. -/
theorem find_8ns_tap_terminates {σ : Type} (fl : ℚ → ℚ) (N_TAPS : Int)
    (measure : σ → Int → ℚ × σ) (s : σ) (fuel : Nat) (hN : 2 ≤ N_TAPS) (hN30 : N_TAPS ≤ 1073741824)
    (hfuel : 1 + Nat.clog 2 (N_TAPS - 1).toNat ≤ fuel) :
    (∀ l r : Int, 0 ≤ l → 1 < r - l → r ≤ N_TAPS - 1 →
      l < Int.tdiv (int32 (l + r)) 2 ∧ Int.tdiv (int32 (l + r)) 2 < r) ∧
    (∃ low s' calls,
      find_8ns_tap fl N_TAPS (counted measure) fuel (s, 0) = some (low, (s', calls)) ∧
      find_8ns_tap fl N_TAPS measure fuel s = some (low, s') ∧
      calls ≤ 1 + Nat.clog 2 (N_TAPS - 1).toNat ∧ 0 ≤ low ∧ low ≤ N_TAPS - 2) := by
  constructor
  · intro l r h0 h1 h2
    rw [mid_eq l r h0 (by omega) (by omega)]
    constructor <;> omega
  · obtain ⟨low, s', c', e, a1, a2, a3⟩ :=
      find_8ns_loop_terminates fl measure (measure s 0).1 fuel 0 (N_TAPS - 1) (measure s 0).2 1
        (le_refl _) (by omega) (by omega) (by rw [sub_zero]; omega)
    have hr : (N_TAPS - 1 - 0).toNat = (N_TAPS - 1).toNat := by simp
    rw [hr] at a1
    have e1 : find_8ns_tap fl N_TAPS (counted measure) fuel (s, 0) = some (low, (s', c')) := by
      unfold find_8ns_tap
      rw [int32_of_range _ (by omega) (by omega)]
      exact e
    refine ⟨low, s', c', e1, ?_, by omega, a2, by omega⟩
    have hproj := find_8ns_loop_counted fl measure (measure s 0).1 fuel 0 (N_TAPS - 1)
      (measure s 0).2 1
    rw [e] at hproj
    unfold find_8ns_tap
    rw [int32_of_range _ (by omega) (by omega)]
    exact hproj.symm

/-- The ceiling of the binary logarithm of 1023 is 10. -/
theorem clog_1023 : Nat.clog 2 1023 = 10 := by
  have h1 : Nat.clog 2 1023 ≤ 10 := (Nat.le_pow_iff_clog_le (by decide)).mp (by norm_num)
  have h2 : 9 < Nat.clog 2 1023 := (Nat.pow_lt_iff_lt_clog (by decide)).mp (by norm_num)
  omega

/-- C15, witness: 1024 taps, binary64 rounding and a measurement that depends on
the device state and is not monotone in the tap; at most 11 calls, and a tap in
`[0, 1022]`. -/
theorem find_8ns_tap_terminates_witness :
    Nat.clog 2 1023 = 10 ∧
    ∃ low s' calls,
      find_8ns_tap round_double 1024
        (counted (fun (s : Nat) f => (if f % 3 = 0 then 9000 else (s : ℚ), s + 1)))
        11 (0, 0) = some (low, (s', calls)) ∧
      find_8ns_tap round_double 1024
        (fun (s : Nat) f => (if f % 3 = 0 then 9000 else (s : ℚ), s + 1))
        11 0 = some (low, s') ∧
      calls ≤ 11 ∧ 0 ≤ low ∧ low ≤ 1022 := by
  have hb : 1 + Nat.clog 2 ((1024 : Int) - 1).toNat = 11 := by
    have : ((1024 : Int) - 1).toNat = 1023 := by decide
    rw [this, clog_1023]
  obtain ⟨_, low, s', calls, e, e', hc, h0, h1⟩ :=
    find_8ns_tap_terminates round_double 1024
      (fun (s : Nat) f => (if f % 3 = 0 then 9000 else (s : ℚ), s + 1)) 0 11
      (by decide) (by decide) (le_of_eq hb)
  rw [hb] at hc
  exact ⟨clog_1023, low, s', calls, e, e', hc, h0, by omega⟩

/-! ## ACAM bus test and bring-up: theorems -/

/-- The data words of two logs follow each other. -/
theorem tdr_writes_append (K : fd_consts) (l1 l2 : List io_event) :
    tdr_writes K (l1 ++ l2) = tdr_writes K l1 ++ tdr_writes K l2 := by
  induction l1 with
  | nil => simp [tdr_writes]
  | cons e l ih =>
    cases e with
    | writel data addr =>
      by_cases h : addr = K.FD_REG_TDR
      · simp only [List.cons_append, tdr_writes, List.append_eq, ih, if_pos h]
      · simp only [List.cons_append, tdr_writes, List.append_eq, ih, if_neg h]
    | readl addr value => simp only [List.cons_append, tdr_writes, List.append_eq, ih]
    | spi ss num_bits data out => simp only [List.cons_append, tdr_writes, List.append_eq, ih]
    | call c ret => simp only [List.cons_append, tdr_writes, List.append_eq, ih]

/-- The function `acam_set_address` writes no data word. -/
theorem tdr_writes_set_address {σ : Type} (P : fd_platform σ) (K : fd_consts) (d : fd_dev σ)
    (reg : Nat) :
    tdr_writes K (acam_set_address P K d reg).log = tdr_writes K d.log := by
  unfold acam_set_address
  simp only
  split
  · simp only [mcp_write, oc_spi_txrx, tdr_writes_append, tdr_writes, List.append_nil]
  · rfl

/-- One iteration of the bus test writes exactly one data word, its pattern. -/
theorem tdr_writes_test_pattern {σ : Type} (P : fd_platform σ) (K : fd_consts)
    (hK : K.FD_REG_TDCSR ≠ K.FD_REG_TDR) (d : fd_dev σ) (i : Nat) (hi : i < 28) :
    tdr_writes K (acam_test_pattern P K d i).2.log = tdr_writes K d.log ++ [1 <<< i] := by
  have hmask : (1 <<< i) &&& 0xfffffff = 1 <<< i := by
    interval_cases i <;> decide
  simp only [acam_test_pattern, acam_read_reg, acam_write_reg, fd_readl, fd_writel,
    tdr_writes_append, tdr_writes, tdr_writes_set_address, if_neg hK, if_true,
    List.append_nil, hmask]

/-- The data words written by `j` passing iterations that start at index `i`. -/
theorem tdr_writes_test_state {σ : Type} (P : fd_platform σ) (K : fd_consts)
    (hK : K.FD_REG_TDCSR ≠ K.FD_REG_TDR) :
    ∀ (j i : Nat) (d : fd_dev σ), i + j ≤ 28 →
      tdr_writes K (acam_test_state P K j i d).log
        = tdr_writes K d.log ++ (List.range j).map (fun m => 1 <<< (i + m)) := by
  intro j
  induction j with
  | zero => intro i d _; simp [acam_test_state]
  | succ j ih =>
    intro i d h
    rw [acam_test_state, ih (i + 1) _ (by omega),
      tdr_writes_test_pattern P K hK d i (by omega), List.range_succ_eq_map,
      List.map_cons, List.map_map, List.append_assoc]
    congr 1
    rw [List.singleton_append, Nat.add_zero]
    congr 1
    apply List.map_congr_left
    intro m _
    show 1 <<< (i + 1 + m) = 1 <<< (i + (m + 1))
    rw [Nat.add_assoc, Nat.add_comm 1 m]

/-- When the first `n` patterns from index `i` all read back unchanged, the loop
of the bus test ends without a `return`. -/
theorem acam_test_bus_loop_pass {σ : Type} (P : fd_platform σ) (K : fd_consts) :
    ∀ (n i : Nat) (d : fd_dev σ),
      (∀ j, j < n →
        (acam_test_pattern P K (acam_test_state P K j i d) (i + j)).1 = 1 <<< (i + j)) →
      acam_test_bus_loop P K n i d = (none, acam_test_state P K n i d) := by
  intro n
  induction n with
  | zero => intro i d _; rfl
  | succ n ih =>
    intro i d h
    have h0 := h 0 (by omega)
    simp only [acam_test_state, Nat.add_zero] at h0
    rw [acam_test_bus_loop]
    rw [if_neg (by rw [h0]; exact fun hne => hne rfl), acam_test_state]
    apply ih
    intro j hj
    have := h (j + 1) (by omega)
    rw [acam_test_state] at this
    have e : i + (j + 1) = i + 1 + j := by omega
    rw [e] at this
    exact this

/-- When pattern `i + k` is the first that does not read back unchanged, the loop
of the bus test returns -1 right after reading it back. -/
theorem acam_test_bus_loop_fail {σ : Type} (P : fd_platform σ) (K : fd_consts) :
    ∀ (n i k : Nat) (d : fd_dev σ), k < n →
      (∀ j, j < k →
        (acam_test_pattern P K (acam_test_state P K j i d) (i + j)).1 = 1 <<< (i + j)) →
      (acam_test_pattern P K (acam_test_state P K k i d) (i + k)).1 ≠ 1 <<< (i + k) →
      acam_test_bus_loop P K n i d
        = (some (-1), (acam_test_pattern P K (acam_test_state P K k i d) (i + k)).2) := by
  intro n
  induction n with
  | zero => intro i k d hk; omega
  | succ n ih =>
    intro i k d hk hpass hfail
    rw [acam_test_bus_loop]
    cases k with
    | zero =>
      simp only [acam_test_state, Nat.add_zero] at hfail ⊢
      rw [if_pos hfail]
    | succ k =>
      have h0 := hpass 0 (by omega)
      simp only [acam_test_state, Nat.add_zero] at h0
      rw [if_neg (by rw [h0]; exact fun hne => hne rfl)]
      have e : i + (k + 1) = i + 1 + k := by omega
      rw [acam_test_state, e] at hfail ⊢
      apply ih (i + 1) k _ (by omega) _ hfail
      intro j hj
      have := hpass (j + 1) (by omega)
      rw [acam_test_state] at this
      have e' : i + (j + 1) = i + 1 + j := by omega
      rw [e'] at this
      exact this

/-- C11: the outcome of `acam_test_bus`. When pattern `1 << k` is the first whose
read-back differs, the function returns -1 right after reading it back, having
written the patterns `1 << 0 .. 1 << k` in ascending order and no later one.
When all 28 patterns read back unchanged, the loop ends after writing all 28
patterns and the function returns no value: control reaches its closing brace
without a `return`. -/
theorem acam_test_bus_outcome {σ : Type} (P : fd_platform σ) (K : fd_consts) (d : fd_dev σ)
    (hK : K.FD_REG_TDCSR ≠ K.FD_REG_TDR) :
    (∀ k, k < 28 →
      (∀ j, j < k →
        (acam_test_pattern P K (acam_test_state P K j 0 d) j).1 = 1 <<< j) →
      (acam_test_pattern P K (acam_test_state P K k 0 d) k).1 ≠ 1 <<< k →
      (acam_test_bus P K d).1 = some (-1) ∧
      tdr_writes K (acam_test_bus P K d).2.log
        = tdr_writes K d.log ++ (List.range (k + 1)).map (fun m => 1 <<< m)) ∧
    ((∀ j, j < 28 →
        (acam_test_pattern P K (acam_test_state P K j 0 d) j).1 = 1 <<< j) →
      (acam_test_bus P K d).1 = none ∧
      tdr_writes K (acam_test_bus P K d).2.log
        = tdr_writes K d.log ++ (List.range 28).map (fun m => 1 <<< m)) := by
  constructor
  · intro k hk hpass hfail
    have e := acam_test_bus_loop_fail P K 28 0 k d hk
      (by intro j hj; rw [Nat.zero_add]; exact hpass j hj)
      (by rw [Nat.zero_add]; exact hfail)
    rw [Nat.zero_add] at e
    unfold acam_test_bus
    rw [e]
    refine ⟨rfl, ?_⟩
    show tdr_writes K (acam_test_pattern P K (acam_test_state P K k 0 d) k).2.log = _
    rw [tdr_writes_test_pattern P K hK _ k hk, tdr_writes_test_state P K hK k 0 d (by omega),
      List.range_succ, List.map_append, List.append_assoc]
    simp only [Nat.zero_add, List.map_cons, List.map_nil]
  · intro hpass
    have e := acam_test_bus_loop_pass P K 28 0 d
      (by intro j hj; rw [Nat.zero_add]; exact hpass j hj)
    unfold acam_test_bus
    rw [e]
    refine ⟨rfl, ?_⟩
    show tdr_writes K (acam_test_state P K 28 0 d).log = _
    rw [tdr_writes_test_state P K hK 28 0 d (by omega)]
    simp only [Nat.zero_add]

set_option maxRecDepth 100000 in
/-- C11, witness: on a chip that echoes only the bit-5 pattern and answers 0
otherwise, the test returns -1 at bit 0 after writing the single pattern 1; on a
chip that echoes every pattern, all 28 patterns are written and no value is
returned. -/
theorem acam_test_bus_outcome_witness :
    ((acam_test_bus (sample_chip sample_consts (fun s => if s = 32 then 32 else 0)
        sample_calibration) sample_consts sample_dev).1 = some (-1) ∧
      tdr_writes sample_consts
        (acam_test_bus (sample_chip sample_consts (fun s => if s = 32 then 32 else 0)
          sample_calibration) sample_consts sample_dev).2.log = [1]) ∧
    ((acam_test_bus (sample_chip sample_consts (fun s => s) sample_calibration)
        sample_consts sample_dev).1 = none ∧
      tdr_writes sample_consts
        (acam_test_bus (sample_chip sample_consts (fun s => s) sample_calibration)
          sample_consts sample_dev).2.log
        = [1, 2, 4, 8, 16, 32, 64, 128, 256, 512, 1024, 2048, 4096, 8192, 16384, 32768,
            65536, 131072, 262144, 524288, 1048576, 2097152, 4194304, 8388608, 16777216,
            33554432, 67108864, 134217728]) := by
  constructor
  · exact (acam_test_bus_outcome
      (sample_chip sample_consts (fun s => if s = 32 then 32 else 0) sample_calibration)
      sample_consts sample_dev (by decide)).1 0 (by decide) (by intro j hj; omega) (by decide)
  · exact (acam_test_bus_outcome (sample_chip sample_consts (fun s => s) sample_calibration)
      sample_consts sample_dev (by decide)).2 (by decide)

/-! ## ACAM register access: theorems -/

/-- The SPI transactions of two logs add up. -/
theorem spi_count_append (l1 l2 : List io_event) :
    spi_count (l1 ++ l2) = spi_count l1 + spi_count l2 := by
  induction l1 with
  | nil => simp [spi_count]
  | cons e l ih =>
    cases e <;> simp only [List.cons_append, spi_count, List.append_eq, ih]
    all_goals omega

/-- The function `acam_set_address` caches the address it is asked for, and makes two
SPI transactions when that address differs from the cached one, none otherwise. -/
theorem acam_set_address_spec {σ : Type} (P : fd_platform σ) (K : fd_consts) (d : fd_dev σ)
    (reg : Nat) (hreg : reg < 256) :
    (acam_set_address P K d reg).acam_addr = reg ∧
    spi_count (acam_set_address P K d reg).log
      = spi_count d.log + (if reg ≠ d.acam_addr then 2 else 0) := by
  have hu : uint8 reg = reg := by unfold uint8; omega
  unfold acam_set_address
  simp only [hu]
  by_cases h : reg ≠ d.acam_addr
  · rw [if_pos h, if_pos h]
    simp only [mcp_write, oc_spi_txrx, spi_count_append, spi_count]
    exact ⟨trivial, trivial⟩
  · rw [if_neg h, if_neg h]
    exact ⟨(not_not.mp h).symm, rfl⟩

/-- One access to a register of the ACAM leaves that register cached and makes
two SPI transactions when it differs from the cached one, none otherwise. -/
theorem acam_do_spec {σ : Type} (P : fd_platform σ) (K : fd_consts) (d : fd_dev σ)
    (a : acam_access) (hreg : a.reg < 256) :
    (acam_do P K d a).acam_addr = a.reg ∧
    spi_count (acam_do P K d a).log
      = spi_count d.log + (if a.reg ≠ d.acam_addr then 2 else 0) := by
  cases a with
  | read reg =>
    obtain ⟨h1, h2⟩ := acam_set_address_spec P K d reg hreg
    simp only [acam_do, acam_read_reg, fd_readl, fd_writel, spi_count_append, spi_count,
      acam_access.reg]
    exact ⟨h1, by rw [h2]; rfl⟩
  | write reg data =>
    obtain ⟨h1, h2⟩ := acam_set_address_spec P K d reg hreg
    simp only [acam_do, acam_write_reg, fd_writel, spi_count_append, spi_count,
      acam_access.reg]
    exact ⟨h1, by rw [h2]; rfl⟩

/-- The SPI transactions of a sequence of accesses: two for every access that
asks for a register other than the cached one. -/
theorem acam_run_spi_count {σ : Type} (P : fd_platform σ) (K : fd_consts) :
    ∀ (accs : List acam_access) (d : fd_dev σ), (∀ a ∈ accs, a.reg < 256) →
      spi_count (acam_run P K d accs).log
        = spi_count d.log + 2 * redrives d.acam_addr accs := by
  intro accs
  induction accs with
  | nil => intro d _; simp [acam_run, redrives]
  | cons a accs ih =>
    intro d h
    obtain ⟨h1, h2⟩ := acam_do_spec P K d a (h a (List.mem_cons_self _ _))
    have := ih (acam_do P K d a) (fun b hb => h b (List.mem_cons_of_mem _ hb))
    simp only [acam_run, List.foldl_cons] at this ⊢
    rw [this, h1, h2]
    simp only [redrives]
    split <;> omega

/-- A sequence of accesses that all ask for the same register has at most one
access that differs from the cache. -/
theorem redrives_same (r : Nat) :
    ∀ (accs : List acam_access) (cached : Nat), (∀ a ∈ accs, a.reg = r) →
      redrives cached accs ≤ 1 ∧ (cached = r → redrives cached accs = 0) := by
  intro accs
  induction accs with
  | nil => intro cached _; simp [redrives]
  | cons a accs ih =>
    intro cached h
    have ha : a.reg = r := h a (List.mem_cons_self _ _)
    obtain ⟨_, h0⟩ := ih r (fun b hb => h b (List.mem_cons_of_mem _ hb))
    simp only [redrives, ha, h0 rfl]
    constructor
    · split <;> omega
    · intro hc
      rw [if_neg (by simp [hc])]

set_option maxRecDepth 100000 in
/-- C12, the code at a failing input: a chip whose data bus always answers 0.
On every device `acam_test_bus` returns -1 (bit 0 does not read back), yet
`fdelay_init` returns 0, and its log shows the bus test followed by the calls
of `calibrate_outputs` and `acam_configure (ACAM_RMODE)`. -/
theorem fdelay_init_ignores_bus_test :
    (∀ d : fd_dev Nat,
      (acam_test_bus (sample_chip sample_consts (fun _ => 0) sample_calibration)
        sample_consts d).1 = some (-1)) ∧
    (fdelay_init (sample_chip sample_consts (fun _ => 0) sample_calibration)
      sample_consts 1 sample_dev).map (fun r => r.1) = some 0 ∧
    (fdelay_init (sample_chip sample_consts (fun _ => 0) sample_calibration)
      sample_consts 1 sample_dev).map
        (fun r => r.2.log.filter (fun e => match e with
          | io_event.call _ _ => true
          | io_event.writel _ addr => addr = sample_consts.FD_REG_TDR
          | _ => false))
      = some [io_event.call callee.malloc 1,
          io_event.call callee.read_calibration_eeprom 0,
          io_event.call (callee.fd_do_reset 1) 0,
          io_event.call callee.ad9516_init 0,
          io_event.call callee.ds18x_init 0,
          io_event.call callee.ds18x_read_temp 0,
          io_event.call (callee.fd_do_reset 0) 0,
          io_event.call (callee.fd_do_reset 0) 0,
          io_event.writel 1 28,
          io_event.call callee.calibrate_outputs 0,
          io_event.call (callee.acam_configure 0) 0,
          io_event.call callee.fdelay_set_time 0,
          io_event.call (callee.udelay 1) 0] := by
  refine ⟨fun d => ?_, by decide, by decide⟩
  have hfail : (acam_test_pattern (sample_chip sample_consts (fun _ => 0) sample_calibration)
      sample_consts (acam_test_state (sample_chip sample_consts (fun _ => 0)
        sample_calibration) sample_consts 0 0 d) (0 + 0)).1 ≠ 1 <<< (0 + 0) := by
    simp [acam_test_pattern, acam_read_reg, fd_readl, sample_chip]
  have e := acam_test_bus_loop_fail (sample_chip sample_consts (fun _ => 0) sample_calibration)
    sample_consts 28 0 0 d (by decide) (by intro j hj; omega) hfail
  unfold acam_test_bus
  rw [e]

/-- The function `fdelay_from_picos` converts a negative `int64_t` argument `v` like
the unsigned value `v + 2^64`, and produces a normalized timestamp for it. -/
theorem from_picos_negative (t0 : fdelay_time_t) (v : Int)
    (h0 : -9223372036854775808 ≤ v) (h1 : v < 0) :
    fdelay_from_picos t0 v = fdelay_from_picos t0 (v + 18446744073709551616) ∧
    normalized (fdelay_from_picos t0 v) ∧
    (fdelay_from_picos t0 v).utc = (v + 18446744073709551616) / 1000000000000 := by
  have e : uint64 v = uint64 (v + 18446744073709551616) := by
    unfold uint64; omega
  have hn := from_picos_normalized t0 (v + 18446744073709551616) (by omega) (by omega)
  have hu := from_picos_unwrapped t0 (v + 18446744073709551616) (by omega) (by omega)
  have heq : fdelay_from_picos t0 v = fdelay_from_picos t0 (v + 18446744073709551616) := by
    unfold fdelay_from_picos
    rw [e]
  rw [heq]
  refine ⟨rfl, hn, ?_⟩
  rw [hu]

/-- C13 (as amended): `fdelay_configure_output` rejects, before any hardware
access, only a channel outside `1 .. 4` (it returns -1 and leaves the device and
its log untouched). For a valid channel it has no range check: whatever the
signs of `delay_ps - zero_offset[channel-1]`, `delay_ps + width_ps` and
`delta_ps`, it returns 0 and writes the channel registers, first `FRR` and the
start timestamp `fdelay_from_picos (delay_ps - zero_offset[channel-1])`; and
`fdelay_from_picos` converts a negative input `v` like `v + 2^64` into a
normalized timestamp. -/
theorem configure_output_no_range_check {σ : Type} (P : fd_platform σ) (K : fd_consts)
    (t0 : fdelay_time_t) (d : fd_dev σ) (channel enable delay_ps width_ps delta_ps : Int)
    (rep_count : Int) (hch : 1 ≤ channel ∧ channel ≤ 4) :
    (fdelay_configure_output P K t0 d channel enable delay_ps width_ps delta_ps rep_count).1
      = 0 ∧
    (∃ rest,
      (fdelay_configure_output P K t0 d channel enable delay_ps width_ps delta_ps
        rep_count).2.log
      = d.log ++
        io_event.writel (uint32 (d.frr_cur (channel - 1)))
          (uint32 (channel * 256 + (K.FD_REG_FRR : Int))) ::
        io_event.writel
          (uint32 ((fdelay_from_picos t0
            (int64 (delay_ps - int64 (d.calib.zero_offset (channel - 1))))).utc
              >>> (32 : Nat)))
          (uint32 (channel * 256 + (K.FD_REG_U_STARTH : Int))) ::
        io_event.writel
          (uint32 ((fdelay_from_picos t0
            (int64 (delay_ps - int64 (d.calib.zero_offset (channel - 1))))).utc
              % 4294967296))
          (uint32 (channel * 256 + (K.FD_REG_U_STARTL : Int))) ::
        io_event.writel
          (uint32 (fdelay_from_picos t0
            (int64 (delay_ps - int64 (d.calib.zero_offset (channel - 1))))).coarse)
          (uint32 (channel * 256 + (K.FD_REG_C_START : Int))) ::
        io_event.writel
          (uint32 (fdelay_from_picos t0
            (int64 (delay_ps - int64 (d.calib.zero_offset (channel - 1))))).frac)
          (uint32 (channel * 256 + (K.FD_REG_F_START : Int))) :: rest) ∧
    (∀ ch : Int, ch < 1 ∨ 4 < ch →
      fdelay_configure_output P K t0 d ch enable delay_ps width_ps delta_ps rep_count
        = (-1, d)) ∧
    (∀ v : Int, -9223372036854775808 ≤ v → v < 0 →
      fdelay_from_picos t0 v = fdelay_from_picos t0 (v + 18446744073709551616) ∧
      normalized (fdelay_from_picos t0 v)) := by
  have hc : ¬ (channel < 1 ∨ channel > 4) := by omega
  refine ⟨?_, ?_, ?_, ?_⟩
  · unfold fdelay_configure_output
    rw [if_neg hc]
  · unfold fdelay_configure_output
    rw [if_neg hc]
    simp only [chan_writel, fd_writel, sgpio_set_pin, mcp_write, mcp_read, oc_spi_txrx,
      List.append_assoc, List.singleton_append, List.cons_append, List.nil_append]
    exact ⟨_, rfl⟩
  · intro ch hch'
    unfold fdelay_configure_output
    rw [if_pos (by omega)]
  · intro v h0 h1
    exact ⟨(from_picos_negative t0 v h0 h1).1, (from_picos_negative t0 v h0 h1).2.1⟩

set_option maxRecDepth 100000 in
/-- C13, witness: channel 1 with `delay_ps = 0` and the default zero offset of
50000 ps, so that the start interval is -50000 ps: the call returns 0. -/
theorem configure_output_no_range_check_witness :
    (fdelay_configure_output (sample_chip sample_consts (fun s => s) sample_calibration)
      sample_consts ⟨0, 0, 0, 0, 0⟩ sample_dev 1 1 0 1000000 0 1).1 = 0 ∧
    fdelay_configure_output (sample_chip sample_consts (fun s => s) sample_calibration)
      sample_consts ⟨0, 0, 0, 0, 0⟩ sample_dev 5 1 0 1000000 0 1 = (-1, sample_dev) := by
  have h := configure_output_no_range_check
    (sample_chip sample_consts (fun s => s) sample_calibration)
    sample_consts ⟨0, 0, 0, 0, 0⟩ sample_dev 1 1 0 1000000 0 1 (by decide)
  exact ⟨h.1, h.2.2.1 5 (by decide)⟩

set_option maxRecDepth 100000 in
/-- C13, counterexample: channel 1 with `delay_ps = 0` and the default zero offset
of 50000 ps. The adjusted delay is -50000 ps, yet the call returns 0 and makes
15 register writes, the start timestamp written being the conversion of
`2^64 - 50000` ps: `utc = 18446744`, `coarse = 9213687`, `frac = 2875`. -/
theorem configure_output_accepts_negative :
    (0 : Int) - sample_dev.calib.zero_offset (1 - 1) < 0 ∧
    (fdelay_configure_output (sample_chip sample_consts (fun s => s) sample_calibration)
      sample_consts ⟨0, 0, 0, 0, 0⟩ sample_dev 1 1 0 1000000 0 1).1 = 0 ∧
    (fdelay_configure_output (sample_chip sample_consts (fun s => s) sample_calibration)
      sample_consts ⟨0, 0, 0, 0, 0⟩ sample_dev 1 1 0 1000000 0 1).2.log
      = [io_event.writel 0 256, io_event.writel 0 260, io_event.writel 18446744 264,
          io_event.writel 9213687 268, io_event.writel 2875 272, io_event.writel 0 276,
          io_event.writel 0 280, io_event.writel 118 284, io_event.writel 3072 288,
          io_event.writel 0 292, io_event.writel 0 296, io_event.writel 0 300,
          io_event.writel 1 304, io_event.writel 36 308, io_event.writel 33 308,
          io_event.spi 1 24 5182464 0, io_event.spi 1 24 5116960 0] ∧
    fdelay_from_picos ⟨0, 0, 0, 0, 0⟩ (-50000) = ⟨18446744, 9213687, 2875, 0, 0⟩ := by
  decide

end FineDelay
